import Mathlib

/-!
Shallow embedding of the Hybrid Retrieval Engine of this repository
(`src/rag/vectorDb.ts`, `src/rag/retriever.ts`, `src/rag/hybrid.ts`).

Modelling conventions:
* JavaScript numbers are modelled as exact rationals (`ℚ`).
* `Math.sqrt` and `Math.log` are transcendental, hence not computable on `ℚ`;
  every definition that needs one takes the corresponding value as an explicit
  parameter (named `sq` / `norms` / `logQ`), and theorems constrain it by its
  defining property where the claim depends on it.
* JavaScript strings are `String`; character-level operations (the tokenizer)
  work on `List Char` (one `Char` per UTF-16 unit for the BMP text involved).
* `Map` objects are association lists in insertion order; `Array.prototype.sort`
  (stable per the ECMAScript spec) is `List.mergeSort`.
* `fetch`-based collaborators are modelled by their observable outcome
  (`FetchOutcome`), since the network is outside the core.
-/

namespace Rag

/-! ## vectorDb.ts -/

/-- Embedding vector (`number[]` / `Float32Array`). -/
abbrev Vec := List ℚ

/-- Sum of squares of a vector's entries (the `sum` accumulated in
`VectorDB.normalize`, vectorDb.ts:67-68). -/
def sumSq (v : Vec) : ℚ := (v.map fun x => x * x).sum

/-- Models `VectorDB.normalize` (vectorDb.ts:66-73).  `s` stands for the value
`Math.sqrt(sum)` computed at line 69 (irrational over `ℚ`, so passed
explicitly); the `if s = 0 then 1 else s` is the `|| 1` guard, since
`Math.sqrt(sum)` is falsy exactly when the sum is `0`. -/
def normalizeWith (v : Vec) (s : ℚ) : Vec :=
  let n := if s = 0 then 1 else s
  v.map (· / n)

/-- Models `VectorDB.cosine` (vectorDb.ts:75-80): dot product over the common
prefix of the two vectors (`len = Math.min(a.length, b.length)`); `zipWith`
truncates to the shorter length exactly like the loop bound. -/
def cosine (a b : Vec) : ℚ := (List.zipWith (· * ·) a b).sum

/-- Structured metadata attached to hybrid-index chunks; the fields are the
ones `applyFilter` reads (hybrid.ts:92-97).  `none` models an absent field. -/
structure DocMeta where
  year : Option ℤ := none
  month : Option ℤ := none
  category_lvl1 : Option String := none
  merchant : Option String := none
  currency : Option String := none
deriving DecidableEq

/-- One entry of `VectorIndex.chunks` (vectorDb.ts:4-11), extended with the
optional `metadata` carried by the hybrid indexes (hybrid.ts:74-75). -/
structure VectorChunk where
  id : String
  text : String
  embedding : Vec
  page : Option ℕ := none
  offset : Option ℕ := none
  tokens : Option ℕ := none
  metadata : Option DocMeta := none
deriving DecidableEq

/-- Models `VectorIndex` (vectorDb.ts:13-19); `version`/`model`/`createdAt` are
inert strings for the search pipeline and are kept only where used. -/
structure VectorIndex where
  model : String := ""
  dims : ℕ := 0
  createdAt : String := ""
  chunks : List VectorChunk
deriving DecidableEq

/-- Models `SearchOptions` (vectorDb.ts:21-25); `none` models an absent field,
resolved by the `??` defaults at vectorDb.ts:83-85. -/
structure SearchOptions where
  topK : Option ℕ := none
  minScore : Option ℚ := none
  mmrLambda : Option ℚ := none
deriving DecidableEq

/-- Models `SearchResultItem` (vectorDb.ts:27-34). -/
structure SearchResultItem where
  id : String
  text : String
  score : ℚ
  page : Option ℕ := none
  offset : Option ℕ := none
  tokens : Option ℕ := none
deriving DecidableEq, Inhabited

/-- State of a `VectorDB` instance (vectorDb.ts:36-43): parallel arrays filled
by the constructor. -/
structure VectorDB where
  dims : ℕ
  texts : List String
  ids : List String
  pages : List (Option ℕ)
  offsets : List (Option ℕ)
  tokenCounts : List (Option ℕ)
  embs : List Vec
deriving DecidableEq

/-- Models the `VectorDB` constructor (vectorDb.ts:45-64): every chunk's
embedding is normalized at load time.  `norms i` stands for the value
`Math.sqrt(sum)` that `normalize` computes for the `i`-th chunk. -/
def VectorDB.ofIndex (index : VectorIndex) (norms : ℕ → ℚ) : VectorDB where
  dims := index.dims
  texts := index.chunks.map (·.text)
  ids := index.chunks.map (·.id)
  pages := index.chunks.map (·.page)
  offsets := index.chunks.map (·.offset)
  tokenCounts := index.chunks.map (·.tokens)
  embs := index.chunks.mapIdx fun i c => normalizeWith c.embedding (norms i)

/-- Relevance scores against every stored chunk (vectorDb.ts:90-94), after the
query is normalized (line 88); `sq` models `Math.sqrt` of the query's sum of
squares. -/
def VectorDB.scoresOf (db : VectorDB) (q : Vec) (sq : ℚ) : List ℚ :=
  let qn := normalizeWith q sq
  db.embs.map fun e => cosine qn e

/-- Candidate preselection (vectorDb.ts:96-105): indices whose score passes
`minScore`, else fall back to the `topK*3` best indices by raw score
(`Array.from(scores.keys()).sort((a,b)=>scores[b]-scores[a]).slice(0,topK*3)`;
the JS sort is stable, modelled by `insertionSort` — all stable sorts agree
for a comparator that is a total preorder). -/
def VectorDB.candidatesOf (db : VectorDB) (q : Vec) (sq : ℚ)
    (options : SearchOptions) : List ℕ :=
  let topK := options.topK.getD 5
  let minScore := options.minScore.getD (1/4)
  let scores := db.scoresOf q sq
  let first := (List.range scores.length).filter fun i =>
    decide (minScore ≤ scores.getD i 0)
  if first = [] then
    ((List.range scores.length).insertionSort fun a b =>
      scores.getD b 0 ≤ scores.getD a 0).take (topK * 3)
  else first

/-- Inner diversity loop of the MMR step (vectorDb.ts:118-122): the largest
similarity of candidate `i` to the already selected indices, starting at `0`. -/
def maxSimTo (db : VectorDB) (i : ℕ) (selected : List ℕ) : ℚ :=
  selected.foldl
    (fun diversity j =>
      let sim := cosine (db.embs.getD i []) (db.embs.getD j [])
      if diversity < sim then sim else diversity)
    0

/-- The MMR objective of candidate `i` against the current selection
(vectorDb.ts:117-123): `mmrLambda × relevance − (1 − mmrLambda) × diversity`. -/
def mmrValue (db : VectorDB) (scores : List ℚ) (lam : ℚ) (selected : List ℕ)
    (i : ℕ) : ℚ :=
  lam * scores.getD i 0 - (1 - lam) * maxSimTo db i selected

/-- One candidate step of the MMR argmax loop (vectorDb.ts:115-128): skip
already-selected indices and keep the first index whose MMR value strictly
beats the best so far (`if (mmr > bestScore)`). -/
def pickStep (db : VectorDB) (scores : List ℚ) (lam : ℚ) (selected : List ℕ)
    (acc : WithBot ℚ × Option ℕ) (i : ℕ) : WithBot ℚ × Option ℕ :=
  if i ∈ selected then acc
  else if acc.1 < ((mmrValue db scores lam selected i : ℚ) : WithBot ℚ) then
    (((mmrValue db scores lam selected i : ℚ) : WithBot ℚ), some i)
  else acc

/-- One pass of the MMR argmax loop (vectorDb.ts:113-128): scan the candidates.
`⊥ : WithBot ℚ` models the initial `-Infinity`, `none` the initial
`bestIdx = -1`. -/
def pickBest (db : VectorDB) (scores : List ℚ) (lam : ℚ)
    (cands selected : List ℕ) : Option ℕ :=
  (cands.foldl (pickStep db scores lam selected)
    ((⊥ : WithBot ℚ), (none : Option ℕ))).2

/-- The MMR `while` loop (vectorDb.ts:111-133).  The loop runs while
`selected.length < topK`, and each non-breaking iteration appends one index, so
`fuel = topK - selected.length` counts the remaining iterations; `pickBest`
returning `none` is the `bestIdx === -1` break (it also covers the
`candidates.length > 0` conjunct, since on an empty candidate list it returns
`none`). -/
def mmrSelectAux (db : VectorDB) (scores : List ℚ) (lam : ℚ) (cands : List ℕ) :
    ℕ → List ℕ → List ℕ
  | 0, selected => selected
  | fuel + 1, selected =>
    match pickBest db scores lam cands selected with
    | none => selected
    | some i => mmrSelectAux db scores lam cands fuel (selected ++ [i])

/-- Selected indices re-sorted by raw relevance score (vectorDb.ts:136-137);
the JS sort comparator `(a,b) => scores[b]-scores[a]` sorts descending by
score, stably (modelled by the stable `insertionSort`). -/
def VectorDB.searchIdx (db : VectorDB) (q : Vec) (sq : ℚ)
    (options : SearchOptions) : List ℕ :=
  let topK := options.topK.getD 5
  let lam := options.mmrLambda.getD (1/2)
  let scores := db.scoresOf q sq
  let cands := db.candidatesOf q sq options
  let selected := mmrSelectAux db scores lam cands topK []
  selected.insertionSort fun a b => scores.getD b 0 ≤ scores.getD a 0

/-- Models `VectorDB.search` (vectorDb.ts:82-146): score, preselect, MMR-select,
re-sort by raw score and materialize the result items (lines 136-145). -/
def VectorDB.search (db : VectorDB) (q : Vec) (sq : ℚ)
    (options : SearchOptions) : List SearchResultItem :=
  let scores := db.scoresOf q sq
  (db.searchIdx q sq options).map fun i =>
    { id := db.ids.getD i ""
      text := db.texts.getD i ""
      score := scores.getD i 0
      page := db.pages.getD i none
      offset := db.offsets.getD i none
      tokens := db.tokenCounts.getD i none }

/-! ## External collaborators (fetch-based) -/

/-- Observable outcome of the embedding request made by `embed`
(retriever.ts:53-67 and hybrid.ts:80-87): the `try` block can throw
(`threw`), the response can be non-success (`ok = false`), or the payload can
lack `data?.data?.[0]?.embedding` (`embedding = none`; an array value is
always truthy in JS, so `|| null` only converts a missing field). -/
structure FetchOutcome where
  threw : Bool := false
  ok : Bool := true
  embedding : Option Vec := none
deriving DecidableEq

/-- Models `embed` (retriever.ts:53-67, hybrid.ts:80-87): `null` on a thrown
transport error, a non-success response, or a missing vector. -/
def embedResult (r : FetchOutcome) : Option Vec :=
  if r.threw then none
  else if !r.ok then none
  else r.embedding

/-! ## retriever.ts -/

/-- Models `RetrieveOptions` (retriever.ts:8-10); `none` is an absent field,
resolved by the destructuring defaults at retriever.ts:79. -/
structure RetrieveOptions where
  topK : Option ℕ := none
  minScore : Option ℚ := none
  mmrLambda : Option ℚ := none
  maxContextChars : Option ℕ := none
deriving DecidableEq

/-- Models `RetrieveResult` (retriever.ts:12-15). -/
structure RetrieveResult where
  context : String
  chunks : List SearchResultItem
deriving DecidableEq

/-- Left-pads a natural number's digits to three places; helper for
`toFixed3`. -/
def padTo3 (s : String) : String :=
  String.mk (List.replicate (3 - s.length) '0') ++ s

/-- Models `Number.prototype.toFixed(3)` (retriever.ts:87) on exact rationals:
round the magnitude to three decimal places (half away from zero) and render
with a sign.  The claims never depend on the digits themselves, only on the
rendered length at concrete inputs chosen to be exactly representable. -/
def toFixed3 (q : ℚ) : String :=
  let n := (⌊|q| * 1000 + 1/2⌋).toNat
  (if q < 0 then "-" else "") ++ toString (n / 1000) ++ "." ++ padTo3 (toString (n % 1000))

/-- Header line of the `i`-th context block (retriever.ts:87): the page part is
rendered only when `r.page` is truthy (present and nonzero). -/
def headerOf (i : ℕ) (r : SearchResultItem) : String :=
  "Источник " ++ toString (i + 1) ++
    (match r.page with
     | some p => if p ≠ 0 then " (стр. " ++ toString p ++ ")" else ""
     | none => "") ++
    " — score " ++ toFixed3 r.score

/-- The context-assembly loop (retriever.ts:83-92): accumulate whole blocks
(`header ++ "\n" ++ text`), breaking before any block that would push `used`
past `maxContextChars`.  Only block lengths are added to `used`. -/
def contextBlocks (maxContextChars : ℕ) : ℕ → ℕ → List SearchResultItem → List String
  | _, _, [] => []
  | i, used, r :: rest =>
    let block := headerOf i r ++ "\n" ++ r.text
    if maxContextChars < used + block.length then []
    else block :: contextBlocks maxContextChars (i + 1) (used + block.length) rest

/-- State of a `Retriever` instance (retriever.ts:17-18): the loaded `VectorDB`
or `null`. -/
structure Retriever where
  db : Option VectorDB

/-- Models `Retriever.retrieve` (retriever.ts:74-95).  The query text only
determines the collaborator's reply, which is the `embedOutcome` parameter;
`sq` models `Math.sqrt` of the query embedding's sum of squares inside
`search`.  The assembled context joins the collected blocks with `"\n\n"`
(retriever.ts:94). -/
def Retriever.retrieve (rt : Retriever) (embedOutcome : FetchOutcome) (sq : ℚ)
    (options : RetrieveOptions) : Option RetrieveResult :=
  match rt.db with
  | none => none
  | some db =>
    match embedResult embedOutcome with
    | none => none
    | some qEmb =>
      let results := db.search qEmb sq
        { topK := some (options.topK.getD 5)
          minScore := some (options.minScore.getD (1/4))
          mmrLambda := some (options.mmrLambda.getD (1/2)) }
      some { context :=
               String.intercalate "\n\n"
                 (contextBlocks (options.maxContextChars.getD 2000) 0 0 results)
             chunks := results }

/-! ## hybrid.ts -/

/-- Models `HybridFilter` (hybrid.ts:3-9). -/
structure HybridFilter where
  year : Option ℤ := none
  month : Option ℤ := none
  category : Option String := none
  merchant : Option String := none
  currency : Option String := none
deriving DecidableEq

/-- The two corpus tags of `HybridResultItem.source` (hybrid.ts:15). -/
inductive HSource where
  | transaction
  | summary
deriving DecidableEq, Inhabited

/-- Models `HybridResultItem` (hybrid.ts:11-16). -/
structure HybridResultItem where
  id : String
  text : String
  score : ℚ
  source : HSource
deriving DecidableEq, Inhabited

/-- A document of `txDocs`/`sumDocs` (hybrid.ts:66-67): id, text and optional
metadata. -/
structure HDoc where
  id : String
  text : String
  metadata : Option DocMeta := none
deriving DecidableEq

/-- JS truthiness of an optional number: absent or `0` is falsy. -/
def truthyInt (o : Option ℤ) : Bool :=
  match o with
  | none => false
  | some n => decide (n ≠ 0)

/-- JS truthiness of an optional string: absent or empty is falsy. -/
def truthyStr (o : Option String) : Bool :=
  match o with
  | none => false
  | some s => decide (s ≠ "")

/-- The per-document predicate of `applyFilter` (hybrid.ts:91-99).
`m := d.metadata || {}`; each line models one `if (...) return false`.  Note
that only the category/merchant/currency constraints test the metadata field's
truthiness before comparing; the year/month constraints compare directly, so a
document without `year`/`month` metadata fails a year/month constraint. -/
def passesFilter (f : HybridFilter) (d : HDoc) : Bool :=
  let m := d.metadata.getD {}
  !(truthyInt f.year && decide (m.year ≠ f.year)) &&
  !(truthyInt f.month && decide (m.month ≠ f.month)) &&
  !(truthyStr f.category && truthyStr m.category_lvl1 && decide (m.category_lvl1 ≠ f.category)) &&
  !(truthyStr f.merchant && truthyStr m.merchant && decide (m.merchant ≠ f.merchant)) &&
  !(truthyStr f.currency && truthyStr m.currency && decide (m.currency ≠ f.currency))

/-- Models `HybridRetriever.applyFilter` (hybrid.ts:89-100). -/
def applyFilter (docs : List HDoc) (f : Option HybridFilter) : List HDoc :=
  match f with
  | none => docs
  | some f => docs.filter fun d => passesFilter f d

/-! ### Tokenizer and BM25 (hybrid.ts:22-61) -/

/-- JS whitespace (`\s`) for the character repertoire of this code base. -/
def isJsSpace (c : Char) : Bool :=
  c = ' ' || c = '\t' || c = '\n' || c = '\r' || c = '\x0b' || c = '\x0c'

/-- Models `String.prototype.toLowerCase` on the Latin and Cyrillic letters the
tokenizer distinguishes; all other characters are left unchanged (they are
replaced by spaces downstream either way). -/
def jsToLower (c : Char) : Char :=
  if 'A' ≤ c ∧ c ≤ 'Z' then Char.ofNat (c.toNat + 32)
  else if 'А' ≤ c ∧ c ≤ 'Я' then Char.ofNat (c.toNat + 32)
  else if c = 'Ё' then 'ё'
  else c

/-- Membership in the character class `[a-zа-я0-9_]` with the `i` flag
(hybrid.ts:23), i.e. the characters the `replace` keeps besides whitespace. -/
def isWordChar (c : Char) : Bool :=
  ('a' ≤ c && c ≤ 'z') || ('а' ≤ c && c ≤ 'я') || ('0' ≤ c && c ≤ '9') ||
  c = '_' || ('A' ≤ c && c ≤ 'Z') || ('А' ≤ c && c ≤ 'Я')

/-- Split a character list at whitespace.  `split(/\s+/)` collapses whitespace
runs but can emit a leading empty piece; splitting at every whitespace
character instead emits empty pieces inside runs as well — after the
`filter(Boolean)` step of `tokenize` both yield the same token list. -/
def splitWs (l : List Char) : List (List Char) :=
  l.foldr
    (fun c acc =>
      if isJsSpace c then [] :: acc
      else
        match acc with
        | [] => [[c]]
        | t :: ts => (c :: t) :: ts)
    [[]]

/-- Models `tokenize` (hybrid.ts:22-24): lowercase, replace every character
outside `[a-zа-я0-9_\s]/i` with a space, split on whitespace, drop empty
tokens. -/
def tokenize (s : List Char) : List (List Char) :=
  ((splitWs ((s.map jsToLower).map fun c =>
      if isWordChar c || isJsSpace c then c else ' ')).filter fun t => decide (t ≠ []))

/-- Number of occurrences of term `t` that the `tf` map of `bm25Score`
accumulates under key `id` (hybrid.ts:34-39): counts across every document
carrying that id. -/
def termDocCount (t : List Char) (docs : List HDoc) (id : String) : ℚ :=
  (((docs.filter fun d => decide (d.id = id)).map fun d =>
      (((tokenize d.text.toList).count t : ℕ) : ℚ)).sum)

/-- Document frequency of term `t` (hybrid.ts:40-43): the number of documents
containing it at least once (the `seen` set guarantees one increment per
document). -/
def docFreq (t : List Char) (docs : List HDoc) : ℚ :=
  ((docs.filter fun d => decide (t ∈ tokenize d.text.toList)).length : ℚ)

/-- The BM25 score of one document (the inner loop of hybrid.ts:47-57).  The
`if (!m) continue` skip corresponds to the term appearing in no document;
`(denom || 1)` is the zero guard on the denominator.  `logQ` models
`Math.log`. -/
def bm25DocScore (logQ : ℚ → ℚ) (tokens : List (List Char)) (docs : List HDoc)
    (N avgdl : ℚ) (d : HDoc) : ℚ :=
  let k1 : ℚ := 12/10
  let b : ℚ := 3/4
  let dl : ℚ := ((tokenize d.text.toList).length : ℚ)
  (tokens.map fun q =>
    if docs.any fun d2 => decide (q ∈ tokenize d2.text.toList) then
      let f := termDocCount q docs d.id
      let dfq := docFreq q docs
      let idf := logQ (1 + (N - dfq + 1/2) / (dfq + 1/2))
      let denom := f + k1 * (1 - b + b * (dl / avgdl))
      idf * ((f * (k1 + 1)) / (if denom = 0 then 1 else denom))
    else 0).sum

/-- Models `Map.prototype.set` on an insertion-ordered association list: update
in place when the key exists, else append. -/
def mapSet (m : List (String × ℚ)) (key : String) (v : ℚ) : List (String × ℚ) :=
  if m.any fun e => decide (e.1 = key) then
    m.map fun e => if e.1 = key then (e.1, v) else e
  else m ++ [(key, v)]

/-- Models `bm25Score` (hybrid.ts:26-61) as an insertion-ordered sparse map.
`N = docs.length || 1`; a document's score is recorded only when truthy
(nonzero). -/
def bm25Score (logQ : ℚ → ℚ) (query : String) (docs : List HDoc) :
    List (String × ℚ) :=
  let tokens := tokenize query.toList
  if tokens = [] then []
  else
    let N : ℚ := if docs.length = 0 then 1 else (docs.length : ℚ)
    let avgdl := ((docs.map fun d => (((tokenize d.text.toList).length : ℕ) : ℚ)).sum) / N
    docs.foldl
      (fun scores d =>
        let s := bm25DocScore logQ tokens docs N avgdl d
        if s = 0 then scores else mapSet scores d.id s)
      []

/-! ### Fusion and hybrid search (hybrid.ts:63-153) -/

/-- Models the inner `fuse` closure of `HybridRetriever.search`
(hybrid.ts:124-145): normalize dense and lexical scores by their observed
maxima (guarded by `1e-6`), weight them `0.6 / 0.4`, then append up to `k`
lexical-only items whose document exists in the corresponding filtered pool,
skipping ids already seen among the dense items. -/
def fuse (k : ℕ) (txPool sumPool : List HDoc) (items : List SearchResultItem)
    (bm : List (String × ℚ)) (source : HSource) : List HybridResultItem :=
  let denseMax := (items.map (·.score)).foldl max (1/1000000)
  let bmMax := (bm.map (·.2)).foldl max (1/1000000)
  let dense := items.map fun it =>
    { id := it.id
      text := it.text
      score := (3/5) * (it.score / denseMax) + (2/5) * (((bm.lookup it.id).getD 0) / bmMax)
      source := source }
  let seen := items.map (·.id)
  let bmOnly := (bm.insertionSort fun a b => b.2 ≤ a.2).take k
  let extra := bmOnly.filterMap fun e =>
    if e.1 ∈ seen then none
    else
      let pool : List HDoc :=
        match source with
        | .transaction => txPool
        | .summary => sumPool
      match pool.find? fun d => decide (d.id = e.1) with
      | some doc => some { id := e.1, text := doc.text, score := (2/5) * (e.2 / bmMax), source := source }
      | none => none
  dense ++ extra

/-- State of a `HybridRetriever` (hybrid.ts:63-67). -/
structure HybridRetriever where
  txDb : Option VectorDB
  sumDb : Option VectorDB
  txDocs : List HDoc
  sumDocs : List HDoc

/-- Models the state produced by `HybridRetriever.load` (hybrid.ts:69-78) from
two already-parsed indexes; `txNorms`/`sumNorms` model the `Math.sqrt` values
of the chunk normalizations inside the two `VectorDB` constructors. -/
def HybridRetriever.loadPure (txIndex sumIndex : VectorIndex)
    (txNorms sumNorms : ℕ → ℚ) : HybridRetriever where
  txDb := some (VectorDB.ofIndex txIndex txNorms)
  sumDb := some (VectorDB.ofIndex sumIndex sumNorms)
  txDocs := txIndex.chunks.map fun c => { id := c.id, text := c.text, metadata := c.metadata }
  sumDocs := sumIndex.chunks.map fun c => { id := c.id, text := c.text, metadata := c.metadata }

/-- Models `HybridRetriever.search` (hybrid.ts:102-152).  `embedOutcome` is the
embedding collaborator's observable reply, `sq` the `Math.sqrt` value used to
normalize the query embedding, `logQ` models `Math.log` inside BM25. -/
def HybridRetriever.search (st : HybridRetriever) (embedOutcome : FetchOutcome)
    (sq : ℚ) (logQ : ℚ → ℚ) (query : String) (filter : Option HybridFilter)
    (k : ℕ := 6) : List HybridResultItem :=
  match st.txDb, st.sumDb with
  | some txDb, some sumDb =>
    match embedResult embedOutcome with
    | none => []
    | some qEmb =>
      let txPool := applyFilter st.txDocs filter
      let sumPool := applyFilter st.sumDocs filter
      let opts : SearchOptions :=
        { topK := some (min k 6), minScore := some (1/5), mmrLambda := some (3/5) }
      let txDense := txDb.search qEmb sq opts
      let sumDense := sumDb.search qEmb sq opts
      let txDenseFiltered := txDense.filter fun d : SearchResultItem =>
        txPool.any fun p => decide (p.id = d.id)
      let sumDenseFiltered := sumDense.filter fun d : SearchResultItem =>
        sumPool.any fun p => decide (p.id = d.id)
      let txBm := bm25Score logQ query txPool
      let sumBm := bm25Score logQ query sumPool
      let fusedTx := fuse k txPool sumPool txDenseFiltered txBm .transaction
      let fusedSum := fuse k txPool sumPool sumDenseFiltered sumBm .summary
      (((fusedTx ++ fusedSum).insertionSort fun a b => b.score ≤ a.score).take k)
  | _, _ => []

/-! ## Claim C10 helper lemmas -/

/-- Generic: mapping `g` over a `filterMap` whose hits satisfy `g b = h a`
yields a sublist of mapping `h` over the source. -/
theorem filterMap_map_sublist {α β γ : Type} (f : α → Option β) (g : β → γ)
    (h : α → γ) (hf : ∀ a b, f a = some b → g b = h a) :
    ∀ l : List α, ((l.filterMap f).map g).Sublist (l.map h) := by
  intro l
  induction l with
  | nil => simp
  | cons a l ih =>
    rw [List.filterMap_cons, List.map_cons]
    cases hfa : f a with
    | none => exact ih.cons _
    | some b =>
      rw [List.map_cons, hf a b hfa]
      exact ih.cons₂ _

/-- Generic: every image element of a `filterMap` comes from a hit. -/
theorem filterMap_forall {α β : Type} (f : α → Option β) (P : β → Prop)
    (l : List α) (hf : ∀ a ∈ l, ∀ b, f a = some b → P b) :
    ∀ b ∈ l.filterMap f, P b := by
  intro b hb
  obtain ⟨a, ha, hab⟩ := List.mem_filterMap.mp hb
  exact hf a ha b hab

/-! ## Basic lemmas about the embedding -/

theorem scoresOf_length (db : VectorDB) (q : Vec) (sq : ℚ) :
    (db.scoresOf q sq).length = db.embs.length := by
  simp [VectorDB.scoresOf]

/-! ### Lemmas about the MMR argmax fold -/

theorem pickStep_fst_le (db : VectorDB) (scores : List ℚ) (lam : ℚ)
    (sel : List ℕ) (acc : WithBot ℚ × Option ℕ) (i : ℕ) :
    acc.1 ≤ (pickStep db scores lam sel acc i).1 := by
  unfold pickStep
  split
  · exact le_refl _
  · split
    · next h => exact le_of_lt h
    · exact le_refl _

theorem foldl_pickStep_fst_mono (db : VectorDB) (scores : List ℚ) (lam : ℚ)
    (sel : List ℕ) :
    ∀ (cands : List ℕ) (acc : WithBot ℚ × Option ℕ),
      acc.1 ≤ (cands.foldl (pickStep db scores lam sel) acc).1 := by
  intro cands
  induction cands with
  | nil => intro acc; exact le_refl _
  | cons i cs ih =>
    intro acc
    exact le_trans (pickStep_fst_le db scores lam sel acc i) (ih _)

theorem foldl_pickStep_some (db : VectorDB) (scores : List ℚ) (lam : ℚ)
    (sel : List ℕ) (Q : ℕ → Prop) :
    ∀ (cands : List ℕ) (acc : WithBot ℚ × Option ℕ),
      (∀ j, acc.2 = some j → Q j) → (∀ i ∈ cands, i ∉ sel → Q i) →
      ∀ j, (cands.foldl (pickStep db scores lam sel) acc).2 = some j → Q j := by
  intro cands
  induction cands with
  | nil => intro acc hacc _ j hj; exact hacc j hj
  | cons i cs ih =>
    intro acc hacc hcands j hj
    refine ih (pickStep db scores lam sel acc i) ?_ (fun x hx hns => hcands x (List.mem_cons_of_mem _ hx) hns) j hj
    intro x hx
    unfold pickStep at hx
    split at hx
    · exact hacc x hx
    · next hnsel =>
      split at hx
      · exact (Option.some_inj.mp hx) ▸ hcands i (List.mem_cons_self _ _) hnsel
      · exact hacc x hx

theorem foldl_pickStep_none (db : VectorDB) (scores : List ℚ) (lam : ℚ)
    (sel : List ℕ) :
    ∀ (cands : List ℕ) (acc : WithBot ℚ × Option ℕ),
      (acc.2 = none → acc.1 = ⊥) →
      (cands.foldl (pickStep db scores lam sel) acc).2 = none →
      acc.2 = none ∧ ∀ i ∈ cands, i ∈ sel := by
  intro cands
  induction cands with
  | nil => intro acc _ h; exact ⟨h, by simp⟩
  | cons i cs ih =>
    intro acc hbot hres
    have hpres : (pickStep db scores lam sel acc i).2 = none →
        (pickStep db scores lam sel acc i).1 = ⊥ := by
      intro h2
      unfold pickStep at h2 ⊢
      split at h2
      · next hmem => rw [if_pos hmem]; exact hbot h2
      · next hmem =>
        split at h2
        · cases h2
        · next hnlt => rw [if_neg hmem, if_neg hnlt]; exact hbot h2
    obtain ⟨hstep, hcs⟩ := ih (pickStep db scores lam sel acc i) hpres hres
    unfold pickStep at hstep
    split at hstep
    · next hsel => exact ⟨hstep, fun x hx => by
        rcases List.mem_cons.mp hx with h | h
        · exact h ▸ hsel
        · exact hcs x h⟩
    · split at hstep
      · cases hstep
      · next hnlt =>
        exact absurd (hbot hstep ▸ WithBot.bot_lt_coe _) hnlt

theorem foldl_pickStep_dominates (db : VectorDB) (scores : List ℚ) (lam : ℚ)
    (sel : List ℕ) :
    ∀ (cands : List ℕ) (acc : WithBot ℚ × Option ℕ),
      ∀ j ∈ cands, j ∉ sel →
        ((mmrValue db scores lam sel j : ℚ) : WithBot ℚ) ≤
          (cands.foldl (pickStep db scores lam sel) acc).1 := by
  intro cands
  induction cands with
  | nil => intro acc j hj; cases hj
  | cons i cs ih =>
    intro acc j hj hns
    rcases List.mem_cons.mp hj with h | h
    · subst h
      refine le_trans ?_ (foldl_pickStep_fst_mono db scores lam sel cs _)
      unfold pickStep
      rw [if_neg hns]
      split
      · exact le_refl _
      · next hnlt => exact le_of_not_lt hnlt
    · exact ih _ j h hns

theorem foldl_pickStep_val (db : VectorDB) (scores : List ℚ) (lam : ℚ)
    (sel : List ℕ) :
    ∀ (cands : List ℕ) (acc : WithBot ℚ × Option ℕ),
      (∀ j, acc.2 = some j → acc.1 = ((mmrValue db scores lam sel j : ℚ) : WithBot ℚ)) →
      (acc.2 = none → acc.1 = ⊥) →
      ∀ i, (cands.foldl (pickStep db scores lam sel) acc).2 = some i →
        (cands.foldl (pickStep db scores lam sel) acc).1 =
          ((mmrValue db scores lam sel i : ℚ) : WithBot ℚ) := by
  intro cands
  induction cands with
  | nil => intro acc hs _ i hi; exact hs i hi
  | cons c cs ih =>
    intro acc hs hn i hi
    refine ih (pickStep db scores lam sel acc c) ?_ ?_ i hi
    · intro j hj
      unfold pickStep at hj ⊢
      split at hj
      · next h => simp only [if_pos h]; exact hs j hj
      · next h =>
        split at hj
        · next hlt =>
          simp only [if_neg h, if_pos hlt]
          cases Option.some_inj.mp hj
          rfl
        · next hnlt =>
          simp only [if_neg h, if_neg hnlt]
          exact hs j hj
    · intro hj
      unfold pickStep at hj ⊢
      split at hj
      · next h => simp only [if_pos h]; exact hn hj
      · next h =>
        split at hj
        · cases hj
        · next hnlt =>
          simp only [if_neg h, if_neg hnlt]
          exact hn hj

theorem pickBest_some_mem (db : VectorDB) (scores : List ℚ) (lam : ℚ)
    (cands sel : List ℕ) (i : ℕ)
    (h : pickBest db scores lam cands sel = some i) : i ∈ cands ∧ i ∉ sel :=
  foldl_pickStep_some db scores lam sel (fun j => j ∈ cands ∧ j ∉ sel) cands
    ((⊥ : WithBot ℚ), none) (by simp) (fun x hx hns => ⟨hx, hns⟩) i h

theorem pickBest_none_forall (db : VectorDB) (scores : List ℚ) (lam : ℚ)
    (cands sel : List ℕ) (h : pickBest db scores lam cands sel = none) :
    ∀ i ∈ cands, i ∈ sel :=
  (foldl_pickStep_none db scores lam sel cands ((⊥ : WithBot ℚ), none)
    (fun _ => rfl) h).2

theorem pickBest_some_max (db : VectorDB) (scores : List ℚ) (lam : ℚ)
    (cands sel : List ℕ) (i : ℕ)
    (h : pickBest db scores lam cands sel = some i) :
    ∀ j ∈ cands, j ∉ sel →
      mmrValue db scores lam sel j ≤ mmrValue db scores lam sel i := by
  intro j hj hns
  have hval := foldl_pickStep_val db scores lam sel cands ((⊥ : WithBot ℚ), none)
    (by simp) (fun _ => rfl) i h
  have hdom := foldl_pickStep_dominates db scores lam sel cands
    ((⊥ : WithBot ℚ), none) j hj hns
  rw [hval] at hdom
  exact WithBot.coe_le_coe.mp hdom

/-! ### Lemmas about the MMR selection loop -/

theorem mmr_aux_length_ge (db : VectorDB) (scores : List ℚ) (lam : ℚ)
    (cands : List ℕ) :
    ∀ (fuel : ℕ) (sel : List ℕ),
      sel.length ≤ (mmrSelectAux db scores lam cands fuel sel).length := by
  intro fuel
  induction fuel with
  | zero => intro sel; exact le_refl _
  | succ n ih =>
    intro sel
    unfold mmrSelectAux
    cases hp : pickBest db scores lam cands sel with
    | none => exact le_refl _
    | some i =>
      calc sel.length ≤ (sel ++ [i]).length := by simp
        _ ≤ _ := ih (sel ++ [i])

theorem mmr_aux_nodup_mem (db : VectorDB) (scores : List ℚ) (lam : ℚ)
    (cands : List ℕ) :
    ∀ (fuel : ℕ) (sel : List ℕ), sel.Nodup →
      (mmrSelectAux db scores lam cands fuel sel).Nodup ∧
      ∀ i ∈ mmrSelectAux db scores lam cands fuel sel, i ∈ sel ∨ i ∈ cands := by
  intro fuel
  induction fuel with
  | zero => intro sel hsel; exact ⟨hsel, fun i hi => Or.inl hi⟩
  | succ n ih =>
    intro sel hsel
    unfold mmrSelectAux
    cases hp : pickBest db scores lam cands sel with
    | none => exact ⟨hsel, fun i hi => Or.inl hi⟩
    | some i =>
      obtain ⟨hic, hins⟩ := pickBest_some_mem db scores lam cands sel i hp
      have hsel' : (sel ++ [i]).Nodup := by
        simp [List.nodup_append, hsel, hins]
      obtain ⟨h1, h2⟩ := ih (sel ++ [i]) hsel'
      refine ⟨h1, fun x hx => ?_⟩
      rcases h2 x hx with h | h
      · rcases List.mem_append.mp h with h | h
        · exact Or.inl h
        · simp at h
          exact Or.inr (h ▸ hic)
      · exact Or.inr h

/-! ### Lemmas about candidate preselection -/

theorem candidatesOf_nodup (db : VectorDB) (q : Vec) (sq : ℚ)
    (options : SearchOptions) : (db.candidatesOf q sq options).Nodup := by
  simp only [VectorDB.candidatesOf]
  split
  · exact List.Sublist.nodup (List.take_sublist _ _)
      (((List.perm_insertionSort _ _).nodup_iff).mpr (List.nodup_range _))
  · exact List.Nodup.filter _ (List.nodup_range _)

theorem candidatesOf_lt (db : VectorDB) (q : Vec) (sq : ℚ)
    (options : SearchOptions) :
    ∀ i ∈ db.candidatesOf q sq options, i < db.embs.length := by
  intro i hi
  simp only [VectorDB.candidatesOf] at hi
  rw [← scoresOf_length db q sq]
  split at hi
  · exact List.mem_range.mp
      ((List.perm_insertionSort _ _).mem_iff.mp (List.mem_of_mem_take hi))
  · exact List.mem_range.mp (List.mem_filter.mp hi).1

/-! ## Claim C6 -/

/-- C6: for every retriever state, query, filter and `k`, if the embedding
collaborator fails — a thrown transport error, a non-success response, or a
missing vector — then `HybridRetriever.search` returns the empty list (the
failure is absorbed, never rethrown: the model is a total function). -/
theorem hybrid_search_embed_failure_empty (st : HybridRetriever) (r : FetchOutcome)
    (sq : ℚ) (logQ : ℚ → ℚ) (query : String) (filter : Option HybridFilter) (k : ℕ)
    (h : r.threw = true ∨ r.ok = false ∨ r.embedding = none) :
    st.search r sq logQ query filter k = [] := by
  have hemb : embedResult r = none := by
    rcases h with h | h | h <;> simp [embedResult, h]
  cases htx : st.txDb <;> cases hsum : st.sumDb <;>
    simp [HybridRetriever.search, htx, hsum, hemb]

/-- Concrete hybrid state used by several witnesses: two one-chunk corpora. -/
def wIndexTx : VectorIndex :=
  { chunks := [{ id := "t1", text := "alpha beta", embedding := [1],
                 metadata := some { year := some 2024 } }] }

/-- Concrete summary-side index used by several witnesses. -/
def wIndexSum : VectorIndex :=
  { chunks := [{ id := "s1", text := "alpha gamma", embedding := [1] }] }

/-- Concrete loaded hybrid state used by several witnesses. -/
def wHybrid : HybridRetriever :=
  HybridRetriever.loadPure wIndexTx wIndexSum (fun _ => 1) (fun _ => 1)

/-- C6 witness: a transport error on a loaded retriever yields `[]`. -/
theorem hybrid_search_embed_failure_empty_witness :
    wHybrid.search { threw := true, ok := true, embedding := some [1] } 1
      (fun _ => 0) "alpha" none 6 = [] :=
  hybrid_search_embed_failure_empty wHybrid _ 1 (fun _ => 0) "alpha" none 6
    (Or.inl rfl)

/-! ## Claim C9 -/

/-- C9: `Retriever.retrieve` returns `none` (JS `null`) exactly when no index
has been loaded or the query embedding could not be obtained; whenever an index
is loaded and an embedding was produced it returns a non-null result. -/
theorem retrieve_none_iff (rt : Retriever) (r : FetchOutcome) (sq : ℚ)
    (options : RetrieveOptions) :
    rt.retrieve r sq options = none ↔ rt.db = none ∨ embedResult r = none := by
  cases hdb : rt.db <;> cases hemb : embedResult r <;>
    simp [Retriever.retrieve, hdb, hemb]

/-! ## Claim C1 -/

/-- First document of the claim's scenario: metadata `{year: 2024, month: 1}`. -/
def fdoc1 : HDoc :=
  { id := "1", text := "", metadata := some { year := some 2024, month := some 1 } }

/-- Second document of the claim's scenario: metadata `{year: 2024, month: 2}`. -/
def fdoc2 : HDoc :=
  { id := "2", text := "", metadata := some { year := some 2024, month := some 2 } }

/-- Third document of the claim's scenario: no metadata at all. -/
def fdoc3 : HDoc := { id := "3", text := "" }

/-- C1 counterexample: on the claim's own scenario — documents with metadata
`{year:2024, month:1}`, `{year:2024, month:2}` and none at all — the filter
`{month: 1}` returns only document 1: the metadata-less document 3 is
excluded, because the `month` constraint has no lenient pass-through for a
missing metadata field. -/
theorem applyFilter_month_excludes_missing_meta :
    applyFilter [fdoc1, fdoc2, fdoc3] (some { month := some 1 }) = [fdoc1] ∧
    fdoc3 ∉ applyFilter [fdoc1, fdoc2, fdoc3] (some { month := some 1 }) := by
  decide

/-- The per-field admission rule the code actually implements, written in the
amended claim's words: for `year` and `month` a document passes only if the
constraint is absent (or `0`, which JS treats as no constraint) or the metadata
value equals it; for `category` (matched against `category_lvl1`), `merchant`
and `currency` the lenient pass-through applies — the constraint is absent or
empty, or the metadata field is absent or empty, or the values are equal. -/
def specPasses (f : HybridFilter) (d : HDoc) : Prop :=
  let m := d.metadata.getD {}
  (f.year = none ∨ f.year = some 0 ∨ m.year = f.year) ∧
  (f.month = none ∨ f.month = some 0 ∨ m.month = f.month) ∧
  (f.category = none ∨ f.category = some "" ∨ m.category_lvl1 = none ∨
    m.category_lvl1 = some "" ∨ m.category_lvl1 = f.category) ∧
  (f.merchant = none ∨ f.merchant = some "" ∨ m.merchant = none ∨
    m.merchant = some "" ∨ m.merchant = f.merchant) ∧
  (f.currency = none ∨ f.currency = some "" ∨ m.currency = none ∨
    m.currency = some "" ∨ m.currency = f.currency)

theorem truthyInt_field_iff (fo mo : Option ℤ) :
    (!(truthyInt fo && decide (mo ≠ fo))) = true ↔
      (fo = none ∨ fo = some 0 ∨ mo = fo) := by
  cases fo with
  | none => simp [truthyInt]
  | some y =>
    by_cases hy : y = 0 <;> simp [truthyInt, hy]

theorem truthyStr_field_iff (fo mo : Option String) :
    (!(truthyStr fo && truthyStr mo && decide (mo ≠ fo))) = true ↔
      (fo = none ∨ fo = some "" ∨ mo = none ∨ mo = some "" ∨ mo = fo) := by
  cases fo with
  | none => simp [truthyStr]
  | some x =>
    cases mo with
    | none => simp [truthyStr]
    | some y =>
      by_cases hx : x = "" <;> by_cases hy : y = "" <;>
        simp [truthyStr, hx, hy]

/-- C1 (amended): a document is admitted by `applyFilter` exactly when every
provided field's constraint holds in the sense of `specPasses` — strict
equality for `year`/`month` (no pass-through when the metadata field is
missing), lenient pass-through for `category`/`merchant`/`currency`; and on
the claim's scenario the filter `{month: 1}` therefore returns only
document 1. -/
theorem applyFilter_admits_iff :
    (∀ (f : HybridFilter) (d : HDoc), passesFilter f d = true ↔ specPasses f d) ∧
    applyFilter [fdoc1, fdoc2, fdoc3] (some { month := some 1 }) = [fdoc1] := by
  refine ⟨fun f d => ?_, by decide⟩
  simp only [passesFilter, specPasses, Bool.and_eq_true, truthyInt_field_iff,
    truthyStr_field_iff, and_assoc]

/-! ## Claim C4 -/

/-- One-chunk index used for the C4 instances: its only chunk scores `-1`
against the query `[-1]`, below any positive threshold. -/
def c4Index : VectorIndex := { chunks := [{ id := "a", text := "t", embedding := [1] }] }

/-- Loaded one-chunk store for the C4 instances. -/
def c4Db : VectorDB := VectorDB.ofIndex c4Index fun _ => 1

theorem c4Db_embs : c4Db.embs = [[1]] := by
  norm_num [c4Db, c4Index, VectorDB.ofIndex, normalizeWith, List.mapIdx_cons]

theorem c4Db_scores : c4Db.scoresOf [-1] 1 = [-1] := by
  norm_num [VectorDB.scoresOf, c4Db_embs, normalizeWith, cosine]

/-- C4 counterexample: with `topK = 0` the fallback takes the top `3×0 = 0`
chunks, so `search` on a non-empty corpus in which no chunk passes `minScore`
returns the empty list — the claim's "never returns an empty list" fails for
that call. -/
theorem search_topK_zero_empty :
    c4Db.embs ≠ [] ∧ (c4Db.scoresOf [-1] 1).getD 0 0 < 1/4 ∧
    c4Db.search [-1] 1 { topK := some 0 } = [] := by
  refine ⟨by rw [c4Db_embs]; simp, by rw [c4Db_scores]; norm_num, ?_⟩
  simp [VectorDB.search, VectorDB.searchIdx, mmrSelectAux]

/-- C4 (amended): provided `topK ≥ 1`, whenever no stored chunk reaches
`minScore`, the candidate set falls back to the `3×topK` best indices by raw
similarity (its size is `min (3×topK) n`), and `search` on a non-empty corpus
returns a non-empty list. -/
theorem search_fallback_nonempty (db : VectorDB) (q : Vec) (sq : ℚ)
    (options : SearchOptions)
    (hk : 1 ≤ options.topK.getD 5)
    (hn : db.embs ≠ [])
    (hmiss : ∀ i < db.embs.length,
      (db.scoresOf q sq).getD i 0 < options.minScore.getD (1/4)) :
    (db.candidatesOf q sq options).length =
      min (options.topK.getD 5 * 3) db.embs.length ∧
    db.search q sq options ≠ [] := by
  have hfilter : ((List.range (db.scoresOf q sq).length).filter fun i =>
      decide (options.minScore.getD (1/4) ≤ (db.scoresOf q sq).getD i 0)) = [] := by
    rw [List.filter_eq_nil_iff]
    intro a ha
    rw [List.mem_range, scoresOf_length] at ha
    simpa using not_le.mpr (hmiss a ha)
  have hc : db.candidatesOf q sq options =
      ((List.range (db.scoresOf q sq).length).insertionSort fun a b =>
        (db.scoresOf q sq).getD b 0 ≤ (db.scoresOf q sq).getD a 0).take
        (options.topK.getD 5 * 3) := by
    simp only [VectorDB.candidatesOf]
    rw [if_pos hfilter]
  have hlen : (db.candidatesOf q sq options).length =
      min (options.topK.getD 5 * 3) db.embs.length := by
    rw [hc]
    simp [List.length_take, List.length_insertionSort, scoresOf_length]
  refine ⟨hlen, ?_⟩
  have hn1 : 1 ≤ db.embs.length := List.length_pos.mpr hn
  have hcpos : 0 < (db.candidatesOf q sq options).length := by
    rw [hlen]
    exact lt_min (by omega) (by omega)
  have hcne : db.candidatesOf q sq options ≠ [] := by
    intro h
    rw [h] at hcpos
    simp at hcpos
  obtain ⟨c0, hc0⟩ := List.exists_mem_of_ne_nil _ hcne
  obtain ⟨m, hm⟩ := Nat.exists_eq_add_of_le hk
  have hsel : 1 ≤ (mmrSelectAux db (db.scoresOf q sq)
      (options.mmrLambda.getD (1/2)) (db.candidatesOf q sq options)
      (options.topK.getD 5) []).length := by
    rw [hm]
    show 1 ≤ (mmrSelectAux db (db.scoresOf q sq) (options.mmrLambda.getD (1/2))
      (db.candidatesOf q sq options) (1 + m) []).length
    rw [Nat.add_comm 1 m]
    unfold mmrSelectAux
    cases hp : pickBest db (db.scoresOf q sq) (options.mmrLambda.getD (1/2))
        (db.candidatesOf q sq options) [] with
    | none =>
      exact absurd (pickBest_none_forall _ _ _ _ _ hp c0 hc0) (List.not_mem_nil c0)
    | some i =>
      calc (1 : ℕ) = ([] ++ [i]).length := by simp
        _ ≤ _ := mmr_aux_length_ge _ _ _ _ _ _
  have hslen : 1 ≤ (db.searchIdx q sq options).length := by
    unfold VectorDB.searchIdx
    rw [List.length_insertionSort]
    exact hsel
  intro hempty
  unfold VectorDB.search at hempty
  rw [List.map_eq_nil_iff] at hempty
  rw [hempty] at hslen
  simp at hslen

/-- C4 witness: on the one-chunk store with query `[-1]` and default options,
the fallback yields one candidate and the search result is non-empty. -/
theorem search_fallback_nonempty_witness :
    (c4Db.candidatesOf [-1] 1 {}).length = min (5 * 3) c4Db.embs.length ∧
    c4Db.search [-1] 1 {} ≠ [] :=
  search_fallback_nonempty c4Db [-1] 1 {} (by decide)
    (by rw [c4Db_embs]; simp)
    (by intro i hi
        rw [c4Db_embs] at hi
        simp only [List.length_singleton, Nat.lt_one_iff] at hi
        subst hi
        rw [c4Db_scores]
        norm_num)

/-! ## Claim C2 -/

/-- Two-chunk index for the C2 failing input: both chunks score `1`, each
context block ("Источник i — score 1.000\ntext") is exactly 30 characters. -/
def c2Index : VectorIndex :=
  { chunks := [{ id := "a", text := "aaaaa", embedding := [1] },
               { id := "b", text := "bbbbb", embedding := [1] }] }

/-- Vector store loaded with the C2 index. -/
def c2Db : VectorDB := VectorDB.ofIndex c2Index fun _ => 1

/-- Retriever loaded with the C2 index. -/
def c2Retriever : Retriever := { db := some c2Db }

theorem c2Db_embs : c2Db.embs = [[1], [1]] := by
  norm_num [c2Db, c2Index, VectorDB.ofIndex, normalizeWith, List.mapIdx_cons]

theorem c2Db_scores : c2Db.scoresOf [1] 1 = [1, 1] := by
  norm_num [VectorDB.scoresOf, c2Db_embs, normalizeWith, cosine]

theorem c2Db_cands :
    c2Db.candidatesOf [1] 1
      { topK := some 5, minScore := some (1/4), mmrLambda := some (1/2) } = [0, 1] := by
  simp only [VectorDB.candidatesOf, c2Db_scores]
  norm_num [List.range_succ]

theorem c2Db_searchIdx :
    c2Db.searchIdx [1] 1
      { topK := some 5, minScore := some (1/4), mmrLambda := some (1/2) } = [0, 1] := by
  simp only [VectorDB.searchIdx, c2Db_cands, c2Db_scores]
  norm_num [mmrSelectAux, pickBest, pickStep, mmrValue, maxSimTo, c2Db_embs,
    cosine, List.insertionSort, List.orderedInsert, WithBot.bot_lt_coe,
    WithBot.coe_lt_coe]

/-- The two result items of the C2 search. -/
def c2ItemA : SearchResultItem := { id := "a", text := "aaaaa", score := 1 }

/-- Second result item of the C2 search. -/
def c2ItemB : SearchResultItem := { id := "b", text := "bbbbb", score := 1 }

theorem c2Db_search :
    c2Db.search [1] 1
      { topK := some 5, minScore := some (1/4), mmrLambda := some (1/2) } =
      [c2ItemA, c2ItemB] := by
  simp only [VectorDB.search, c2Db_searchIdx, c2Db_scores]
  norm_num [c2Db, c2Index, VectorDB.ofIndex, c2ItemA, c2ItemB, List.mapIdx_cons]

theorem toFixed3_one : toFixed3 1 = "1.000" := by
  have h : ⌊|(1 : ℚ)| * 1000 + 1/2⌋ = 1000 := by
    rw [abs_one, Int.floor_eq_iff]
    norm_num
  simp only [toFixed3, h]
  rw [if_neg (by norm_num : ¬(1 : ℚ) < 0)]
  decide

/-- C2 failing input: with `maxContextChars = 60` and two 30-character blocks,
the loop admits both blocks (`used` reaches exactly 60), but `join("\n\n")`
inserts a 2-character separator that `used` never counted, so the returned
context has length 62 > 60 — contradicting the claim (and the code's own
comment "hard cap for assembled context length", retriever.ts:9). -/
theorem retrieve_context_exceeds_cap :
    ((c2Retriever.retrieve { embedding := some [1] } 1
        { maxContextChars := some 60 }).map fun r => r.context.length) =
      some 62 ∧ 60 < 62 := by
  refine ⟨?_, by norm_num⟩
  have hstep : c2Retriever.retrieve { embedding := some [1] } 1
      { maxContextChars := some 60 } =
      some { context := String.intercalate "\n\n"
               (contextBlocks 60 0 0 [c2ItemA, c2ItemB])
             chunks := [c2ItemA, c2ItemB] } := by
    simp only [Retriever.retrieve, c2Retriever, embedResult]
    norm_num [c2Db_search]
  rw [hstep]
  norm_num [contextBlocks, headerOf, toFixed3_one, c2ItemA, c2ItemB]
  decide

/-! ## Claim C5 -/

theorem foldl_max_swap (q : List ℚ) : ∀ (a x : ℚ),
    List.foldl max (max a x) q = max x (List.foldl max a q) := by
  induction q with
  | nil => intro a x; simp [max_comm]
  | cons y q ih =>
    intro a x
    show List.foldl max (max (max a x) y) q = max x (List.foldl max (max a y) q)
    rw [show max (max a x) y = max (max a y) x by
      rw [max_assoc, max_comm x y, ← max_assoc]]
    exact ih (max a y) x

theorem foldl_max_insert (p : List ℚ) (q : List ℚ) (a x : ℚ) :
    List.foldl max a (p ++ x :: q) = max x (List.foldl max a (p ++ q)) := by
  induction p generalizing a with
  | nil => exact foldl_max_swap q a x
  | cons h p ih => exact ih (max a h)

theorem le_foldl_max (l : List ℚ) : ∀ a : ℚ, a ≤ List.foldl max a l := by
  induction l with
  | nil => intro a; exact le_refl a
  | cons x l ih =>
    intro a
    exact le_trans (le_max_left a x) (ih (max a x))

theorem lookup_append_cons (pre post : List (String × ℚ)) (d : String) (v : ℚ)
    (hpre : ∀ e ∈ pre, e.1 ≠ d) :
    (pre ++ (d, v) :: post).lookup d = some v := by
  induction pre with
  | nil => simp [List.lookup]
  | cons e pre ih =>
    have hne : (d == e.1) = false := by
      simp only [beq_eq_false_iff_ne, ne_eq]
      exact fun h => hpre e (List.mem_cons_self _ _) h.symm
    show List.lookup d (e :: (pre ++ (d, v) :: post)) = some v
    rw [show (e : String × ℚ) = (e.1, e.2) from rfl]
    rw [List.lookup_cons]
    simp only [hne]
    exact ih fun x hx => hpre x (List.mem_cons_of_mem _ hx)

theorem div_max_mono (M v1 v2 : ℚ) (hM : 0 < M) (h : v1 ≤ v2) :
    v1 / max v1 M ≤ v2 / max v2 M := by
  rcases le_or_lt v2 M with h2 | h2
  · rw [max_eq_right (le_trans h h2), max_eq_right h2]
    exact div_le_div_of_nonneg_right h hM.le
  · rw [max_eq_left h2.le, div_self (ne_of_gt (lt_trans hM h2))]
    rcases le_or_lt v1 M with h1 | h1
    · rw [max_eq_right h1]
      exact (div_le_one hM).mpr h1
    · rw [max_eq_left h1.le, div_self (ne_of_gt (lt_trans hM h1))]

theorem getD_map_append {α β : Type} [Inhabited α] [Inhabited β] (f : α → β)
    (rest : List β) :
    ∀ (l : List α) (idx : ℕ), idx < l.length →
      ((l.map f) ++ rest).getD idx default = f (l.getD idx default) := by
  intro l
  induction l with
  | nil => intro idx h; simp at h
  | cons a l ih =>
    intro idx h
    cases idx with
    | zero => rfl
    | succ n => exact ih n (by simpa using h)

/-- C5: in score fusion, holding a document's dense score and every other
input fixed, increasing that document's lexical (BM25) score never decreases
its own fused score.  The lexical map is `pre ++ (d, vᵢ) :: post` with the
entry for document `d` raised from `v1` to `v2` (the no-duplicate-key
hypotheses are the `Map` invariant); the fused item at the document's dense
position has a score that can only grow. -/
theorem fuse_lexical_monotone (k : ℕ) (txPool sumPool : List HDoc)
    (items : List SearchResultItem) (source : HSource)
    (pre post : List (String × ℚ)) (d : String) (v1 v2 : ℚ) (idx : ℕ)
    (hv : v1 ≤ v2)
    (hpre : ∀ e ∈ pre, e.1 ≠ d) (_hpost : ∀ e ∈ post, e.1 ≠ d)
    (hidx : idx < items.length)
    (hid : (items.getD idx default).id = d) :
    ((fuse k txPool sumPool items (pre ++ (d, v1) :: post) source).getD idx
        default).score ≤
    ((fuse k txPool sumPool items (pre ++ (d, v2) :: post) source).getD idx
        default).score := by
  have hM : 0 < List.foldl max (1/1000000) (pre.map (·.2) ++ post.map (·.2)) :=
    lt_of_lt_of_le (by norm_num) (le_foldl_max _ _)
  have key : ∀ v : ℚ,
      ((fuse k txPool sumPool items (pre ++ (d, v) :: post) source).getD idx
          default).score =
        3/5 * ((items.getD idx default).score /
            ((items.map (·.score)).foldl max (1/1000000))) +
        2/5 * (v / max v (List.foldl max (1/1000000)
            (pre.map (·.2) ++ post.map (·.2)))) := by
    intro v
    simp only [fuse]
    rw [getD_map_append _ _ items idx hidx]
    dsimp only
    have hmap : ((pre ++ (d, v) :: post).map (·.2)) =
        (pre.map (·.2) ++ v :: post.map (·.2)) := by simp
    rw [hid, lookup_append_cons pre post d v hpre, hmap,
      foldl_max_insert (pre.map (·.2)) (post.map (·.2)) (1/1000000) v]
    simp
  rw [key v1, key v2]
  have := div_max_mono _ v1 v2 hM hv
  have h25 : (0:ℚ) ≤ 2/5 := by norm_num
  exact add_le_add_left (mul_le_mul_of_nonneg_left this h25) _

/-- C5 witness: a single dense item with id `d`; raising its lexical score
from `0` to `1` does not decrease its fused score. -/
theorem fuse_lexical_monotone_witness :
    ((fuse 1 [] [] [{ id := "d", text := "t", score := 1 }]
        ([] ++ ("d", 0) :: []) HSource.transaction).getD 0 default).score ≤
    ((fuse 1 [] [] [{ id := "d", text := "t", score := 1 }]
        ([] ++ ("d", 1) :: []) HSource.transaction).getD 0 default).score :=
  fuse_lexical_monotone 1 [] [] [{ id := "d", text := "t", score := 1 }]
    HSource.transaction [] [] "d" 0 1 0 (by norm_num) (by simp) (by simp)
    (by norm_num) rfl

/-! ## Claim C3 -/

theorem mmrValue_one (db : VectorDB) (scores : List ℚ) (sel : List ℕ) (i : ℕ) :
    mmrValue db scores 1 sel i = scores.getD i 0 := by
  unfold mmrValue
  ring

theorem filter_not_mem_append_one (i : ℕ) :
    ∀ (cands : List ℕ), ∀ (sel : List ℕ), cands.Nodup → i ∈ cands → i ∉ sel →
      (cands.filter fun j => decide (j ∉ sel ++ [i])).length + 1 =
      (cands.filter fun j => decide (j ∉ sel)).length := by
  intro cands
  induction cands with
  | nil => intro sel _ hmem _; cases hmem
  | cons x xs ih =>
    intro sel hnd hmem hins
    have hxnd : x ∉ xs := (List.nodup_cons.mp hnd).1
    have hnd' : xs.Nodup := (List.nodup_cons.mp hnd).2
    rcases List.mem_cons.mp hmem with hx | hx
    · subst hx
      have hcong : xs.filter (fun j => decide (j ∉ sel ++ [i])) =
          xs.filter (fun j => decide (j ∉ sel)) := by
        refine List.filter_congr fun j hj => ?_
        have hji : j ≠ i := fun h => hxnd (h ▸ hj)
        simp [List.mem_append, hji]
      have h1 : (decide (i ∉ sel ++ [i])) = false := by simp
      have h2 : (decide (i ∉ sel)) = true := by simpa using hins
      rw [List.filter_cons, List.filter_cons, h1, h2]
      simp only [Bool.false_eq_true, if_false, if_true, List.length_cons]
      rw [hcong]
    · have hxi : x ≠ i := fun h => hxnd (h ▸ hx)
      simp only [List.filter_cons]
      by_cases hxs : x ∈ sel
      · have h1 : (decide (x ∉ sel ++ [i])) = false := by simp [hxs]
        have h2 : (decide (x ∉ sel)) = false := by simpa using hxs
        simp only [h1, h2, Bool.false_eq_true, if_false]
        exact ih sel hnd' hx hins
      · have h1 : (decide (x ∉ sel ++ [i])) = true := by
          simp [List.mem_append, hxs, hxi]
        have h2 : (decide (x ∉ sel)) = true := by simpa using hxs
        simp only [h1, h2, if_true, List.length_cons]
        have := ih sel hnd' hx hins
        omega

theorem mmr_one_invariant (db : VectorDB) (scores : List ℚ) (cands : List ℕ)
    (hc : cands.Nodup) :
    ∀ (fuel : ℕ) (sel : List ℕ),
      sel.Nodup → (∀ i ∈ sel, i ∈ cands) →
      sel.Pairwise (fun a b => scores.getD b 0 ≤ scores.getD a 0) →
      (∀ a ∈ sel, ∀ j ∈ cands, j ∉ sel → scores.getD j 0 ≤ scores.getD a 0) →
      (mmrSelectAux db scores 1 cands fuel sel).Nodup ∧
      (∀ i ∈ mmrSelectAux db scores 1 cands fuel sel, i ∈ cands) ∧
      (mmrSelectAux db scores 1 cands fuel sel).Pairwise
        (fun a b => scores.getD b 0 ≤ scores.getD a 0) ∧
      (∀ a ∈ mmrSelectAux db scores 1 cands fuel sel, ∀ j ∈ cands,
        j ∉ mmrSelectAux db scores 1 cands fuel sel →
          scores.getD j 0 ≤ scores.getD a 0) ∧
      (mmrSelectAux db scores 1 cands fuel sel).length =
        sel.length + min fuel ((cands.filter fun j => decide (j ∉ sel)).length) := by
  intro fuel
  induction fuel with
  | zero =>
    intro sel h1 h2 h3 h4
    refine ⟨h1, ?_, h3, ?_, by simp [mmrSelectAux]⟩
    · intro i hi
      exact h2 i hi
    · intro a ha j hj hns
      exact h4 a ha j hj hns
  | succ fuel ih =>
    intro sel h1 h2 h3 h4
    cases hp : pickBest db scores 1 cands sel with
    | none =>
      have hres : mmrSelectAux db scores 1 cands (fuel + 1) sel = sel := by
        conv_lhs => rw [mmrSelectAux]
        rw [hp]
      have hfz : (cands.filter fun j => decide (j ∉ sel)).length = 0 := by
        have : (cands.filter fun j => decide (j ∉ sel)) = [] := by
          rw [List.filter_eq_nil_iff]
          intro a ha
          simpa using pickBest_none_forall db scores 1 cands sel hp a ha
        rw [this]
        rfl
      rw [hres, hfz]
      exact ⟨h1, h2, h3, h4, by simp⟩
    | some i =>
      obtain ⟨hic, hins⟩ := pickBest_some_mem db scores 1 cands sel i hp
      have hmax : ∀ j ∈ cands, j ∉ sel →
          scores.getD j 0 ≤ scores.getD i 0 := by
        intro j hj hjs
        have := pickBest_some_max db scores 1 cands sel i hp j hj hjs
        rwa [mmrValue_one, mmrValue_one] at this
      have hres : mmrSelectAux db scores 1 cands (fuel + 1) sel =
          mmrSelectAux db scores 1 cands fuel (sel ++ [i]) := by
        conv_lhs => rw [mmrSelectAux]
        rw [hp]
      have hsel1 : (sel ++ [i]).Nodup := by
        rw [List.nodup_append]
        exact ⟨h1, List.nodup_singleton i, by
          intro a ha hai
          rw [List.mem_singleton] at hai
          exact hins (hai ▸ ha)⟩
      have hsel2 : ∀ x ∈ sel ++ [i], x ∈ cands := by
        intro x hx
        rcases List.mem_append.mp hx with hx | hx
        · exact h2 x hx
        · rw [List.mem_singleton] at hx
          exact hx ▸ hic
      have hsel3 : (sel ++ [i]).Pairwise
          (fun a b => scores.getD b 0 ≤ scores.getD a 0) := by
        rw [List.pairwise_append]
        refine ⟨h3, List.pairwise_singleton _ _, ?_⟩
        intro a ha b hb
        rw [List.mem_singleton] at hb
        exact hb ▸ h4 a ha i hic hins
      have hsel4 : ∀ a ∈ sel ++ [i], ∀ j ∈ cands, j ∉ sel ++ [i] →
          scores.getD j 0 ≤ scores.getD a 0 := by
        intro a ha j hj hjs
        have hjs' : j ∉ sel := fun h => hjs (List.mem_append.mpr (Or.inl h))
        rcases List.mem_append.mp ha with ha | ha
        · exact h4 a ha j hj hjs'
        · rw [List.mem_singleton] at ha
          exact ha ▸ hmax j hj hjs'
      obtain ⟨g1, g2, g3, g4, g5⟩ := ih (sel ++ [i]) hsel1 hsel2 hsel3 hsel4
      rw [hres]
      refine ⟨g1, g2, g3, g4, ?_⟩
      have hm1 : 1 ≤ (cands.filter fun j => decide (j ∉ sel)).length := by
        have hmem : i ∈ cands.filter fun j => decide (j ∉ sel) :=
          List.mem_filter.mpr ⟨hic, by simpa using hins⟩
        have := List.ne_nil_of_mem hmem
        have := List.length_pos.mpr this
        omega
      have hstep := filter_not_mem_append_one i cands sel hc hic hins
      rw [g5]
      simp only [List.length_append, List.length_singleton]
      omega

theorem candidatesOf_dominates (db : VectorDB) (q : Vec) (sq : ℚ)
    (options : SearchOptions) :
    ∀ j < db.embs.length, j ∉ db.candidatesOf q sq options →
      ∀ i ∈ db.candidatesOf q sq options,
        (db.scoresOf q sq).getD j 0 ≤ (db.scoresOf q sq).getD i 0 := by
  intro j hj hnc i hi
  have hj' : j < (db.scoresOf q sq).length := by
    rw [scoresOf_length]; exact hj
  simp only [VectorDB.candidatesOf] at hnc hi
  split at hnc
  · next hempty =>
    rw [if_pos hempty] at hi
    haveI htot : IsTotal ℕ (fun a b =>
        (db.scoresOf q sq).getD b 0 ≤ (db.scoresOf q sq).getD a 0) :=
      ⟨fun a b => (le_total _ _).symm⟩
    haveI htrans : IsTrans ℕ (fun a b =>
        (db.scoresOf q sq).getD b 0 ≤ (db.scoresOf q sq).getD a 0) :=
      ⟨fun _ _ _ h1 h2 => le_trans h2 h1⟩
    have hsorted := List.sorted_insertionSort (fun a b =>
        (db.scoresOf q sq).getD b 0 ≤ (db.scoresOf q sq).getD a 0)
      (List.range (db.scoresOf q sq).length)
    have hmemall : j ∈ (List.range (db.scoresOf q sq).length).insertionSort
        (fun a b => (db.scoresOf q sq).getD b 0 ≤ (db.scoresOf q sq).getD a 0) :=
      (List.perm_insertionSort _ _).mem_iff.mpr (List.mem_range.mpr hj')
    set sorted := (List.range (db.scoresOf q sq).length).insertionSort
      (fun a b => (db.scoresOf q sq).getD b 0 ≤ (db.scoresOf q sq).getD a 0)
      with hsortdef
    have hsplit : sorted = sorted.take (options.topK.getD 5 * 3) ++
        sorted.drop (options.topK.getD 5 * 3) := (List.take_append_drop _ _).symm
    have hdrop : j ∈ sorted.drop (options.topK.getD 5 * 3) := by
      rcases List.mem_append.mp (hsplit ▸ hmemall) with h | h
      · exact absurd h hnc
      · exact h
    have hpair : List.Pairwise (fun a b =>
        (db.scoresOf q sq).getD b 0 ≤ (db.scoresOf q sq).getD a 0)
        (sorted.take (options.topK.getD 5 * 3) ++
          sorted.drop (options.topK.getD 5 * 3)) := by
      rw [← hsplit]
      exact hsorted
    exact (List.pairwise_append.mp hpair).2.2 i hi j hdrop
  · next hne =>
    rw [if_neg hne] at hi
    have hjlow : ¬ (options.minScore.getD (1/4) ≤ (db.scoresOf q sq).getD j 0) := by
      intro hle
      exact hnc (List.mem_filter.mpr ⟨List.mem_range.mpr hj', by simpa using hle⟩)
    have hihigh : options.minScore.getD (1/4) ≤ (db.scoresOf q sq).getD i 0 := by
      have := (List.mem_filter.mp hi).2
      simpa using this
    exact le_trans (le_of_not_le hjlow) hihigh

/-- C3: with `mmrLambda = 1` the search output is exactly a top-k selection by
raw cosine similarity: the result items are sorted descending by score, the
selected indices are distinct candidates, exactly `min topK |candidates|` of
them are returned, and every index left out scores no higher than every index
returned. -/
theorem search_mmr_lambda_one (db : VectorDB) (q : Vec) (sq : ℚ)
    (options : SearchOptions) (hlam : options.mmrLambda.getD (1/2) = 1) :
    (db.search q sq options).Pairwise (fun a b => b.score ≤ a.score) ∧
    (db.searchIdx q sq options).Nodup ∧
    (∀ i ∈ db.searchIdx q sq options, i ∈ db.candidatesOf q sq options) ∧
    (db.searchIdx q sq options).length =
      min (options.topK.getD 5) (db.candidatesOf q sq options).length ∧
    (∀ j < db.embs.length, j ∉ db.searchIdx q sq options →
      ∀ i ∈ db.searchIdx q sq options,
        (db.scoresOf q sq).getD j 0 ≤ (db.scoresOf q sq).getD i 0) := by
  have hidx : db.searchIdx q sq options =
      (mmrSelectAux db (db.scoresOf q sq) 1 (db.candidatesOf q sq options)
        (options.topK.getD 5) []).insertionSort
        (fun a b => (db.scoresOf q sq).getD b 0 ≤ (db.scoresOf q sq).getD a 0) := by
    simp only [VectorDB.searchIdx, hlam]
  obtain ⟨g1, g2, g3, g4, g5⟩ := mmr_one_invariant db (db.scoresOf q sq)
    (db.candidatesOf q sq options) (candidatesOf_nodup db q sq options)
    (options.topK.getD 5) [] List.nodup_nil (by simp) List.Pairwise.nil
    (by simp)
  have hperm := List.perm_insertionSort
    (fun a b => (db.scoresOf q sq).getD b 0 ≤ (db.scoresOf q sq).getD a 0)
    (mmrSelectAux db (db.scoresOf q sq) 1 (db.candidatesOf q sq options)
      (options.topK.getD 5) [])
  haveI htot : IsTotal ℕ (fun a b =>
      (db.scoresOf q sq).getD b 0 ≤ (db.scoresOf q sq).getD a 0) :=
    ⟨fun a b => (le_total _ _).symm⟩
  haveI htrans : IsTrans ℕ (fun a b =>
      (db.scoresOf q sq).getD b 0 ≤ (db.scoresOf q sq).getD a 0) :=
    ⟨fun _ _ _ h1 h2 => le_trans h2 h1⟩
  have hsorted := List.sorted_insertionSort (fun a b =>
      (db.scoresOf q sq).getD b 0 ≤ (db.scoresOf q sq).getD a 0)
    (mmrSelectAux db (db.scoresOf q sq) 1 (db.candidatesOf q sq options)
      (options.topK.getD 5) [])
  refine ⟨?_, ?_, ?_, ?_, ?_⟩
  · show (List.map _ (db.searchIdx q sq options)).Pairwise _
    rw [List.pairwise_map]
    rw [hidx]
    exact hsorted.imp fun h => h
  · rw [hidx]
    exact hperm.nodup_iff.mpr g1
  · intro i hi
    rw [hidx] at hi
    exact g2 i (hperm.mem_iff.mp hi)
  · rw [hidx, List.length_insertionSort, g5]
    have : ((db.candidatesOf q sq options).filter
        fun j => decide (j ∉ ([] : List ℕ))).length =
        (db.candidatesOf q sq options).length := by
      have : ((db.candidatesOf q sq options).filter
          fun j => decide (j ∉ ([] : List ℕ))) = db.candidatesOf q sq options := by
        rw [List.filter_eq_self]
        intro a _
        simp
      rw [this]
    rw [this]
    simp [Nat.min_comm]
  · intro j hj hnj i hi
    rw [hidx] at hnj hi
    have hnj' : j ∉ mmrSelectAux db (db.scoresOf q sq) 1
        (db.candidatesOf q sq options) (options.topK.getD 5) [] :=
      fun h => hnj (hperm.mem_iff.mpr h)
    have hi' := hperm.mem_iff.mp hi
    by_cases hjc : j ∈ db.candidatesOf q sq options
    · exact g4 i hi' j hjc hnj'
    · exact candidatesOf_dominates db q sq options j hj hjc i (g2 i hi')

/-- C3 witness: on the two-chunk store with `mmrLambda = 1`, the search output
is the relevance-ordered top-k selection. -/
theorem search_mmr_lambda_one_witness :
    (c2Db.search [1] 1 { mmrLambda := some 1 }).Pairwise
      (fun a b => b.score ≤ a.score) ∧
    (c2Db.searchIdx [1] 1 { mmrLambda := some 1 }).Nodup ∧
    (∀ i ∈ c2Db.searchIdx [1] 1 { mmrLambda := some 1 },
      i ∈ c2Db.candidatesOf [1] 1 { mmrLambda := some 1 }) ∧
    (c2Db.searchIdx [1] 1 { mmrLambda := some 1 }).length =
      min 5 (c2Db.candidatesOf [1] 1 { mmrLambda := some 1 }).length ∧
    (∀ j < c2Db.embs.length, j ∉ c2Db.searchIdx [1] 1 { mmrLambda := some 1 } →
      ∀ i ∈ c2Db.searchIdx [1] 1 { mmrLambda := some 1 },
        (c2Db.scoresOf [1] 1).getD j 0 ≤ (c2Db.scoresOf [1] 1).getD i 0) :=
  search_mmr_lambda_one c2Db [1] 1 { mmrLambda := some 1 } rfl

/-! ## Claim C8 -/

theorem sumSq_nonneg (v : Vec) : 0 ≤ sumSq v := by
  refine List.sum_nonneg fun x hx => ?_
  obtain ⟨y, _, rfl⟩ := List.mem_map.mp hx
  exact mul_self_nonneg y

theorem cosine_eq_sum_range :
    ∀ (a b : Vec), cosine a b =
      ∑ i ∈ Finset.range (min a.length b.length), a.getD i 0 * b.getD i 0 := by
  intro a
  induction a with
  | nil => intro b; simp [cosine]
  | cons x xs ih =>
    intro b
    cases b with
    | nil => simp [cosine]
    | cons y ys =>
      show cosine (x :: xs) (y :: ys) = _
      have : cosine (x :: xs) (y :: ys) = x * y + cosine xs ys := by
        simp [cosine]
      rw [this, ih ys]
      have hmin : min (x :: xs).length (y :: ys).length =
          min xs.length ys.length + 1 := by
        simp [Nat.succ_min_succ]
      rw [hmin, Finset.sum_range_succ']
      simp [add_comm]

theorem sum_range_sq_le_sumSq :
    ∀ (a : Vec) (n : ℕ), ∑ i ∈ Finset.range n, (a.getD i 0) ^ 2 ≤ sumSq a := by
  intro a
  induction a with
  | nil =>
    intro n
    have : ∀ i ∈ Finset.range n, (([] : Vec).getD i 0) ^ 2 = 0 := by
      intro i _; simp
    rw [Finset.sum_congr rfl this]
    simp [sumSq]
  | cons x xs ih =>
    intro n
    cases n with
    | zero => simpa using sumSq_nonneg (x :: xs)
    | succ m =>
      rw [Finset.sum_range_succ']
      have h1 : ∀ i ∈ Finset.range m, ((x :: xs).getD (i + 1) 0) ^ 2 =
          (xs.getD i 0) ^ 2 := by intro i _; rfl
      rw [Finset.sum_congr rfl h1]
      have h2 : sumSq (x :: xs) = sumSq xs + x * x := by
        simp [sumSq]; ring
      rw [h2]
      have := ih m
      have hx : ((x :: xs).getD 0 0) ^ 2 = x * x := by simp; ring
      rw [hx]
      exact add_le_add this (le_refl _)

theorem cosine_sq_le (a b : Vec) :
    (cosine a b) ^ 2 ≤ sumSq a * sumSq b := by
  rw [cosine_eq_sum_range]
  calc (∑ i ∈ Finset.range (min a.length b.length), a.getD i 0 * b.getD i 0) ^ 2
      ≤ (∑ i ∈ Finset.range (min a.length b.length), (a.getD i 0) ^ 2) *
        (∑ i ∈ Finset.range (min a.length b.length), (b.getD i 0) ^ 2) :=
        Finset.sum_mul_sq_le_sq_mul_sq _ _ _
    _ ≤ sumSq a * sumSq b := by
        refine mul_le_mul (sum_range_sq_le_sumSq a _) (sum_range_sq_le_sumSq b _)
          (Finset.sum_nonneg fun i _ => sq_nonneg _) (sumSq_nonneg a)

theorem cosine_bounds (a b : Vec) (ha : sumSq a ≤ 1) (hb : sumSq b ≤ 1) :
    -1 ≤ cosine a b ∧ cosine a b ≤ 1 := by
  have h1 : (cosine a b) ^ 2 ≤ 1 := by
    calc (cosine a b) ^ 2 ≤ sumSq a * sumSq b := cosine_sq_le a b
      _ ≤ 1 := mul_le_one₀ ha (sumSq_nonneg b) hb
  exact abs_le.mp ((sq_le_one_iff_abs_le_one _).mp h1)

theorem sumSq_map_div (v : Vec) (s : ℚ) (hs : s ≠ 0) :
    sumSq (v.map (· / s)) = sumSq v / (s * s) := by
  induction v with
  | nil => simp [sumSq]
  | cons x xs ih =>
    have h1 : sumSq ((x :: xs).map (· / s)) = (x / s) * (x / s) + sumSq (xs.map (· / s)) := by
      simp [sumSq]
    have h2 : sumSq (x :: xs) = x * x + sumSq xs := by simp [sumSq]
    rw [h1, h2, ih]
    field_simp

theorem sumSq_normalizeWith_le_one (v : Vec) (s : ℚ)
    (hs2 : s * s = sumSq v) : sumSq (normalizeWith v s) ≤ 1 := by
  by_cases hs : s = 0
  · have hv : sumSq v = 0 := by rw [← hs2, hs]; ring
    have : normalizeWith v s = v.map (· / 1) := by
      simp [normalizeWith, hs]
    rw [this]
    simp only [div_one, List.map_id']
    rw [hv]
    norm_num
  · have hmap : normalizeWith v s = v.map (· / s) := by
      simp [normalizeWith, hs]
    have hv : sumSq v ≠ 0 := by
      rw [← hs2]
      exact mul_ne_zero hs hs
    rw [hmap, sumSq_map_div v s hs, hs2, div_self hv]

/-- Every index returned by `searchIdx` addresses a stored chunk. -/
theorem searchIdx_lt (db : VectorDB) (q : Vec) (sq : ℚ) (options : SearchOptions) :
    ∀ i ∈ db.searchIdx q sq options, i < db.embs.length := by
  intro i hi
  simp only [VectorDB.searchIdx] at hi
  have hperm := List.perm_insertionSort
    (fun a b => (db.scoresOf q sq).getD b 0 ≤ (db.scoresOf q sq).getD a 0)
    (mmrSelectAux db (db.scoresOf q sq) (options.mmrLambda.getD (1/2))
      (db.candidatesOf q sq options) (options.topK.getD 5) [])
  have hi' := hperm.mem_iff.mp hi
  rcases (mmr_aux_nodup_mem db (db.scoresOf q sq) (options.mmrLambda.getD (1/2))
      (db.candidatesOf q sq options) (options.topK.getD 5) [] List.nodup_nil).2 i hi' with
    h | h
  · cases h
  · exact candidatesOf_lt db q sq options i h

/-- C8: if `sq` really is the square root of the query's sum of squares and
`norms i` really is the square root of the `i`-th chunk embedding's sum of
squares (the values `Math.sqrt` produces at vectorDb.ts:69), then every score
returned by `search` on the loaded store lies in `[-1, 1]` — including when
the query or a stored embedding is the zero vector (normalization then leaves
it zero) or when the lengths differ (the cosine runs over the common
prefix). -/
theorem search_scores_in_unit_range (index : VectorIndex) (norms : ℕ → ℚ)
    (q : Vec) (sq : ℚ) (options : SearchOptions)
    (hsq2 : sq * sq = sumSq q)
    (hnorms2 : ∀ i (hi : i < index.chunks.length),
      norms i * norms i = sumSq (index.chunks.get ⟨i, hi⟩).embedding) :
    ∀ it ∈ (VectorDB.ofIndex index norms).search q sq options,
      -1 ≤ it.score ∧ it.score ≤ 1 := by
  intro it hit
  set db := VectorDB.ofIndex index norms with hdb
  have hembs : ∀ e ∈ db.embs, sumSq e ≤ 1 := by
    intro e he
    have : e ∈ index.chunks.mapIdx fun i c => normalizeWith c.embedding (norms i) := he
    rw [List.mem_mapIdx] at this
    obtain ⟨i, hi, hie⟩ := this
    rw [← hie]
    exact sumSq_normalizeWith_le_one _ _ (by rw [hnorms2 i hi]; rfl)
  have hqn : sumSq (normalizeWith q sq) ≤ 1 := sumSq_normalizeWith_le_one q sq hsq2
  simp only [VectorDB.search, List.mem_map] at hit
  obtain ⟨i, hi, hix⟩ := hit
  have hlt : i < db.embs.length := searchIdx_lt db q sq options i hi
  have hscore : it.score = (db.scoresOf q sq).getD i 0 := by rw [← hix]
  have hv : (db.scoresOf q sq).getD i 0 = cosine (normalizeWith q sq) db.embs[i] := by
    have hlt2 : i < (db.scoresOf q sq).length := by rw [scoresOf_length]; exact hlt
    rw [List.getD_eq_getElem _ _ hlt2]
    simp only [VectorDB.scoresOf]
    rw [List.getElem_map]
  rw [hscore, hv]
  exact cosine_bounds _ _ hqn (hembs _ (List.getElem_mem hlt))

/-- C8 witness: the first item returned by the search on the two-unit-chunk
store has a score inside `[-1, 1]`. -/
theorem search_scores_in_unit_range_witness :
    -1 ≤ c2ItemA.score ∧ c2ItemA.score ≤ 1 :=
  search_scores_in_unit_range c2Index (fun _ => 1) [1] 1
    { topK := some 5, minScore := some (1/4), mmrLambda := some (1/2) }
    (by norm_num [sumSq])
    (by intro i hi
        have h2 : i < 2 := by simpa [c2Index] using hi
        interval_cases i <;> norm_num [c2Index, sumSq])
    c2ItemA
    (by show c2ItemA ∈ c2Db.search [1] 1 _
        rw [c2Db_search]
        exact List.mem_cons_self _ _)

/-! ## Claim C7 -/

/-- Character class of the claim's wording: Latin or Cyrillic letters (both
cases, `ё` included) and decimal digits — no underscore. -/
def isLatinCyrLetterOrDigit (c : Char) : Bool :=
  ('a' ≤ c && c ≤ 'z') || ('A' ≤ c && c ≤ 'Z') || ('а' ≤ c && c ≤ 'я') ||
  ('А' ≤ c && c ≤ 'Я') || c = 'ё' || c = 'Ё' || ('0' ≤ c && c ≤ '9')

/-- C7 counterexample: the tokenizer does not split on `_` — the input
`"a_b"` yields the single token `"a_b"`, which contains a character that is
neither a Latin/Cyrillic letter nor a digit. -/
theorem tokenize_keeps_underscore :
    tokenize ['a', '_', 'b'] = [['a', '_', 'b']] ∧
    isLatinCyrLetterOrDigit '_' = false := by
  decide

theorem splitWs_ne_nil (l : List Char) : splitWs l ≠ [] := by
  induction l with
  | nil => simp [splitWs]
  | cons c l ih =>
    show (if isJsSpace c then [] :: splitWs l
          else match splitWs l with
               | [] => [[c]]
               | t :: ts => (c :: t) :: ts) ≠ []
    cases hsp : isJsSpace c <;> cases hl : splitWs l <;> simp_all

theorem splitWs_chars (l : List Char) :
    ∀ t ∈ splitWs l, ∀ c ∈ t, c ∈ l ∧ isJsSpace c = false := by
  induction l with
  | nil =>
    intro t ht c hc
    simp [splitWs] at ht
    subst ht
    simp at hc
  | cons x l ih =>
    intro t ht c hc
    have hstep : splitWs (x :: l) =
        (if isJsSpace x then [] :: splitWs l
         else match splitWs l with
              | [] => [[x]]
              | t :: ts => (x :: t) :: ts) := rfl
    rw [hstep] at ht
    cases hsp : isJsSpace x with
    | true =>
      simp [hsp] at ht
      rcases ht with ht | ht
      · subst ht; simp at hc
      · have := ih t ht c hc
        exact ⟨List.mem_cons_of_mem _ this.1, this.2⟩
    | false =>
      simp [hsp] at ht
      cases hl : splitWs l with
      | nil => exact absurd hl (splitWs_ne_nil l)
      | cons t0 ts =>
        rw [hl] at ht
        simp at ht
        rcases ht with ht | ht
        · subst ht
          rcases List.mem_cons.mp hc with hc | hc
          · subst hc; exact ⟨List.mem_cons_self _ _, hsp⟩
          · have := ih t0 (by rw [hl]; exact List.mem_cons_self _ _) c hc
            exact ⟨List.mem_cons_of_mem _ this.1, this.2⟩
        · have := ih t (by rw [hl]; exact List.mem_cons_of_mem _ ht) c hc
          exact ⟨List.mem_cons_of_mem _ this.1, this.2⟩

theorem tokenize_chars_aux (s : List Char) :
    ∀ t ∈ tokenize s, t ≠ [] ∧ ∀ c ∈ t, isWordChar c = true := by
  intro t ht
  unfold tokenize at ht
  rw [List.mem_filter] at ht
  obtain ⟨ht, hne⟩ := ht
  refine ⟨by simpa using hne, fun c hc => ?_⟩
  obtain ⟨hmem, hnsp⟩ := splitWs_chars _ t ht c hc
  rw [List.mem_map] at hmem
  obtain ⟨x, _, hx⟩ := hmem
  by_cases hw : (isWordChar x || isJsSpace x) = true
  · rw [if_pos hw] at hx
    subst hx
    rcases Bool.or_eq_true_iff.mp hw with h | h
    · exact h
    · rw [h] at hnsp; cases hnsp
  · rw [if_neg hw] at hx
    subst hx
    cases hnsp

/-- C7 (amended): the tokenizer lowercases, splits on every character outside
the class `[a-zа-я0-9_]` (case-insensitively; note `а-я` excludes `ё`) plus
whitespace, and discards empty tokens — so every produced token is nonempty
and consists only of characters of that class (which includes the
underscore). -/
theorem tokenize_tokens_wordchars (s : List Char) :
    ((tokenize s).all fun t => !(t.isEmpty) && t.all isWordChar) = true := by
  rw [List.all_eq_true]
  intro t ht
  obtain ⟨hne, hc⟩ := tokenize_chars_aux s t ht
  rw [Bool.and_eq_true, List.all_eq_true]
  refine ⟨?_, fun c hc2 => hc c hc2⟩
  simp [hne]

/-! ## Claim C10 -/

/-- The selected-and-sorted index list is duplicate-free for every `λ`. -/
theorem searchIdx_nodup (db : VectorDB) (q : Vec) (sq : ℚ)
    (options : SearchOptions) : (db.searchIdx q sq options).Nodup := by
  simp only [VectorDB.searchIdx]
  refine (List.perm_insertionSort _ _).nodup_iff.mpr ?_
  exact (mmr_aux_nodup_mem db (db.scoresOf q sq) (options.mmrLambda.getD (1/2))
    (db.candidatesOf q sq options) (options.topK.getD 5) [] List.nodup_nil).1

/-- The ids of a search result are distinct whenever the store's ids are
(the parallel arrays have equal length for any store built by the
constructor). -/
theorem search_ids_nodup (db : VectorDB) (q : Vec) (sq : ℚ)
    (options : SearchOptions) (hids : db.ids.Nodup)
    (hlen : db.embs.length ≤ db.ids.length) :
    ((db.search q sq options).map (·.id)).Nodup := by
  simp only [VectorDB.search]
  rw [List.map_map]
  refine List.Nodup.map_on ?_ (searchIdx_nodup db q sq options)
  intro x hx y hy hxy
  have hxl : x < db.ids.length := lt_of_lt_of_le (searchIdx_lt db q sq options x hx) hlen
  have hyl : y < db.ids.length := lt_of_lt_of_le (searchIdx_lt db q sq options y hy) hlen
  have : db.ids.getD x "" = db.ids.getD y "" := hxy
  rw [List.getD_eq_getElem _ _ hxl, List.getD_eq_getElem _ _ hyl] at this
  have := (hids.get_inj_iff (i := ⟨x, hxl⟩) (j := ⟨y, hyl⟩)).mp this
  exact congrArg Fin.val this

/-- Keys of `mapSet`: updating keeps the key list, inserting appends the new
key. -/
theorem mapSet_keys (m : List (String × ℚ)) (key : String) (v : ℚ) :
    (mapSet m key v).map (·.1) = m.map (·.1) ∨
    ((mapSet m key v).map (·.1) = m.map (·.1) ++ [key] ∧ key ∉ m.map (·.1)) := by
  unfold mapSet
  split
  · left
    rw [List.map_map]
    refine List.map_congr_left fun e _ => ?_
    by_cases h : e.1 = key <;> simp [h]
  · next h =>
    right
    refine ⟨by simp, ?_⟩
    intro hk
    obtain ⟨e, he, hek⟩ := List.mem_map.mp hk
    exact h (List.any_eq_true.mpr ⟨e, he, by simpa using hek⟩)

/-- The lexical score map has duplicate-free keys, unconditionally: `mapSet`
never inserts an existing key. -/
theorem bm25_fold_keys_nodup (logQ : ℚ → ℚ) (tokens : List (List Char))
    (docs : List HDoc) (N avgdl : ℚ) :
    ∀ (l : List HDoc) (acc : List (String × ℚ)), (acc.map (·.1)).Nodup →
      ((l.foldl (fun scores d =>
          let s := bm25DocScore logQ tokens docs N avgdl d
          if s = 0 then scores else mapSet scores d.id s) acc).map (·.1)).Nodup := by
  intro l
  induction l with
  | nil => intro acc h; exact h
  | cons d l ih =>
    intro acc h
    refine ih _ ?_
    by_cases hs : bm25DocScore logQ tokens docs N avgdl d = 0
    · simpa [hs] using h
    · simp only [hs, if_false]
      rcases mapSet_keys acc d.id (bm25DocScore logQ tokens docs N avgdl d) with
        hk | ⟨hk, hnk⟩
      · rwa [hk]
      · rw [hk, List.nodup_append]
        exact ⟨h, List.nodup_singleton _, by
          intro a ha hb
          rw [List.mem_singleton] at hb
          exact hnk (hb ▸ ha)⟩

theorem bm25Score_keys_nodup (logQ : ℚ → ℚ) (query : String) (docs : List HDoc) :
    ((bm25Score logQ query docs).map (·.1)).Nodup := by
  by_cases ht : tokenize query.toList = []
  · simp only [bm25Score]
    rw [if_pos ht]
    simp
  · simp only [bm25Score]
    rw [if_neg ht]
    exact bm25_fold_keys_nodup logQ _ docs _ _ docs [] (by simp)

/-- Every entry of `mapSet` carries the inserted key or an existing key. -/
theorem mapSet_mem_keys (m : List (String × ℚ)) (key : String) (v : ℚ) :
    ∀ e ∈ mapSet m key v, e.1 = key ∨ e.1 ∈ m.map (·.1) := by
  intro e he
  unfold mapSet at he
  split at he
  · obtain ⟨x, hx, hxe⟩ := List.mem_map.mp he
    by_cases h : x.1 = key
    · left
      rw [← hxe]
      simp [h]
    · right
      rw [← hxe]
      simp only [h, if_false]
      exact List.mem_map.mpr ⟨x, hx, rfl⟩
  · rcases List.mem_append.mp he with h | h
    · exact Or.inr (List.mem_map.mpr ⟨e, h, rfl⟩)
    · left
      rw [List.mem_singleton] at h
      rw [h]

/-- Every key of the lexical score map is the id of some document of the
scored pool. -/
theorem bm25_fold_keys_sub (logQ : ℚ → ℚ) (tokens : List (List Char))
    (docs : List HDoc) (N avgdl : ℚ) (P : String → Prop) :
    ∀ (l : List HDoc) (acc : List (String × ℚ)),
      (∀ e ∈ acc, P e.1) → (∀ d ∈ l, P d.id) →
      ∀ e ∈ l.foldl (fun scores d =>
          let s := bm25DocScore logQ tokens docs N avgdl d
          if s = 0 then scores else mapSet scores d.id s) acc, P e.1 := by
  intro l
  induction l with
  | nil => intro acc hacc _ e he; exact hacc e he
  | cons d l ih =>
    intro acc hacc hl e he
    refine ih _ ?_ (fun x hx => hl x (List.mem_cons_of_mem _ hx)) e he
    intro x hx
    by_cases hs : bm25DocScore logQ tokens docs N avgdl d = 0
    · exact hacc x (by simpa [hs] using hx)
    · simp only [hs, if_false] at hx
      rcases mapSet_mem_keys acc d.id _ x hx with h | h
      · exact h ▸ hl d (List.mem_cons_self _ _)
      · obtain ⟨y, hy, hyx⟩ := List.mem_map.mp h
        exact hyx ▸ hacc y hy

theorem bm25Score_keys_sub (logQ : ℚ → ℚ) (query : String) (docs : List HDoc) :
    ∀ e ∈ bm25Score logQ query docs, e.1 ∈ docs.map (·.id) := by
  by_cases ht : tokenize query.toList = []
  · simp only [bm25Score]
    rw [if_pos ht]
    simp
  · simp only [bm25Score]
    rw [if_neg ht]
    exact bm25_fold_keys_sub logQ _ docs _ _ _ docs [] (by simp)
      (fun d hd => List.mem_map.mpr ⟨d, hd, rfl⟩)

/-- All items produced by `fuse` carry the corpus tag it was called with. -/
theorem fuse_source (k : ℕ) (txPool sumPool : List HDoc)
    (items : List SearchResultItem) (bm : List (String × ℚ)) (source : HSource) :
    ∀ it ∈ fuse k txPool sumPool items bm source, it.source = source := by
  intro it hit
  simp only [fuse] at hit
  rcases List.mem_append.mp hit with h | h
  · obtain ⟨x, _, hxe⟩ := List.mem_map.mp h
    rw [← hxe]
  · refine filterMap_forall _ (fun b => b.source = source) _ ?_ it h
    intro e _ b hb
    split at hb
    · cases hb
    · split at hb
      · next doc _ =>
        rw [← Option.some_inj.mp hb]
      · cases hb

/-- Selects the pool that `fuse` searches for lexical-only documents
(`source === 'transaction' ? txPool : sumPool`, hybrid.ts:141). -/
def poolOf (txPool sumPool : List HDoc) : HSource → List HDoc
  | HSource.transaction => txPool
  | HSource.summary => sumPool

/-- Generic: ids of `items.map F ++ l.filterMap f` are duplicate-free when `F`
preserves ids, `f`-hits carry their key as id and never an already-seen id,
and both id sources are duplicate-free. -/
theorem map_id_nodup_append (items : List SearchResultItem)
    (F : SearchResultItem → HybridResultItem) (hF : ∀ it, (F it).id = it.id)
    (l : List (String × ℚ)) (f : (String × ℚ) → Option HybridResultItem)
    (hf : ∀ e b, f e = some b → b.id = e.1)
    (hfseen : ∀ e b, f e = some b → b.id ∉ items.map (·.id))
    (hitems : (items.map (·.id)).Nodup) (hl : (l.map (·.1)).Nodup) :
    ((items.map F ++ l.filterMap f).map (·.id)).Nodup := by
  have hdense : items.map ((fun b : HybridResultItem => b.id) ∘ F) =
      items.map (·.id) := List.map_congr_left fun it _ => hF it
  rw [List.map_append, List.nodup_append]
  refine ⟨?_, ?_, ?_⟩
  · rw [List.map_map, hdense]
    exact hitems
  · exact List.Sublist.nodup (filterMap_map_sublist f (·.id) (·.1) hf l) hl
  · rw [List.map_map, hdense]
    intro a ha hb
    obtain ⟨x, hx, hxa⟩ := List.mem_map.mp hb
    obtain ⟨e, _, hbe⟩ := List.mem_filterMap.mp hx
    exact (hxa ▸ hfseen e x hbe) ha

/-- The ids of a fused list are duplicate-free when the dense items' ids and
the lexical map's keys are. -/
theorem fuse_ids_nodup (k : ℕ) (txPool sumPool : List HDoc)
    (items : List SearchResultItem) (bm : List (String × ℚ)) (source : HSource)
    (hitems : (items.map (·.id)).Nodup) (hbm : (bm.map (·.1)).Nodup) :
    ((fuse k txPool sumPool items bm source).map (·.id)).Nodup := by
  simp only [fuse]
  refine map_id_nodup_append items _ (fun it => rfl) _ _ ?_ ?_ hitems ?_
  · intro e b hb
    split at hb
    · cases hb
    · split at hb
      · rw [← Option.some_inj.mp hb]
      · cases hb
  · intro e b hb
    split at hb
    · cases hb
    · next hnm =>
      split at hb
      · intro hbmem
        have hbid : b.id = e.1 := by rw [← Option.some_inj.mp hb]
        exact hnm (hbid ▸ hbmem)
      · cases hb
  · rw [List.map_take]
    exact List.Sublist.nodup (List.take_sublist _ _)
      ((((List.perm_insertionSort _ bm).map (·.1))).nodup_iff.mpr hbm)

/-- Every fused item's id occurs in the pool the call's `source` selects —
dense items were intersected with the pool by the caller (hypothesis), and
lexical-only items are added only when `find?` locates their document in the
pool. -/
theorem fuse_ids_sub (k : ℕ) (txPool sumPool : List HDoc)
    (items : List SearchResultItem) (bm : List (String × ℚ)) (source : HSource)
    (hitems : ∀ it ∈ items, it.id ∈ (poolOf txPool sumPool source).map (·.id)) :
    ∀ it ∈ fuse k txPool sumPool items bm source,
      it.id ∈ (poolOf txPool sumPool source).map (·.id) := by
  intro it hit
  simp only [fuse] at hit
  rcases List.mem_append.mp hit with h | h
  · obtain ⟨x, hx, hxe⟩ := List.mem_map.mp h
    rw [← hxe]
    exact hitems x hx
  · refine filterMap_forall _
      (fun b => b.id ∈ (poolOf txPool sumPool source).map (fun d => d.id)) _ ?_ it h
    intro e _ b hb
    split at hb
    · cases hb
    · split at hb
      · next doc hdoc =>
        have hmem : doc ∈ poolOf txPool sumPool source := by
          cases source <;> exact List.mem_of_find?_eq_some hdoc
        have hid : doc.id = e.1 := by simpa using List.find?_some hdoc
        rw [← Option.some_inj.mp hb]
        exact List.mem_map.mpr ⟨doc, hmem, hid⟩
      · cases hb

theorem nodup_map_id_pairwise (l : List HybridResultItem)
    (h : (l.map (·.id)).Nodup) : l.Pairwise fun a b => ¬ a.id = b.id := by
  have hp : List.Pairwise (fun a b : String => a ≠ b) (l.map (·.id)) := h
  rw [List.pairwise_map] at hp
  exact hp

/-- The final combine step (hybrid.ts:150) keeps the `(id, source)` pairs
distinct when each corpus's fused list has distinct ids and a uniform tag. -/
theorem combine_pairwise (k : ℕ) (l1 l2 : List HybridResultItem)
    (h1 : (l1.map (·.id)).Nodup) (h2 : (l2.map (·.id)).Nodup)
    (hs1 : ∀ it ∈ l1, it.source = HSource.transaction)
    (hs2 : ∀ it ∈ l2, it.source = HSource.summary) :
    (((l1 ++ l2).insertionSort fun a b => b.score ≤ a.score).take k).Pairwise
      (fun a b => ¬(a.id = b.id ∧ a.source = b.source)) := by
  refine List.Pairwise.sublist (List.take_sublist _ _) ?_
  have hsymm : ∀ {x y : HybridResultItem}, ¬(x.id = y.id ∧ x.source = y.source) →
      ¬(y.id = x.id ∧ y.source = x.source) :=
    fun h hxy => h ⟨hxy.1.symm, hxy.2.symm⟩
  refine (List.Perm.pairwise_iff hsymm (List.perm_insertionSort _ _)).mpr ?_
  rw [List.pairwise_append]
  refine ⟨?_, ?_, ?_⟩
  · exact (nodup_map_id_pairwise l1 h1).imp fun h hc => h hc.1
  · exact (nodup_map_id_pairwise l2 h2).imp fun h hc => h hc.1
  · intro a ha b hb hc
    rw [hs1 a ha, hs2 b hb] at hc
    cases hc.2

/-- Every item of the final combine step comes from one of the fused lists. -/
theorem combine_mem (k : ℕ) (l1 l2 : List HybridResultItem) :
    ∀ it ∈ ((l1 ++ l2).insertionSort fun a b => b.score ≤ a.score).take k,
      it ∈ l1 ∨ it ∈ l2 := by
  intro it hit
  exact List.mem_append.mp
    ((List.perm_insertionSort _ _).mem_iff.mp (List.mem_of_mem_take hit))

/-- C10: on a state loaded from two indexes whose chunk ids are unique within
their corpus, `HybridRetriever.search` never returns two items with the same
`(id, source)` pair, and every returned item's id belongs to its corpus's
filtered pool (so a lexical-only item is added only when its document survived
the filter). -/
theorem hybrid_search_no_duplicate_pairs (txIndex sumIndex : VectorIndex)
    (txNorms sumNorms : ℕ → ℚ) (r : FetchOutcome) (sq : ℚ) (logQ : ℚ → ℚ)
    (query : String) (filter : Option HybridFilter) (k : ℕ)
    (htx : (txIndex.chunks.map (·.id)).Nodup)
    (hsum : (sumIndex.chunks.map (·.id)).Nodup) :
    ((HybridRetriever.loadPure txIndex sumIndex txNorms sumNorms).search r sq
        logQ query filter k).Pairwise
      (fun a b => ¬(a.id = b.id ∧ a.source = b.source)) ∧
    ∀ it ∈ (HybridRetriever.loadPure txIndex sumIndex txNorms sumNorms).search
        r sq logQ query filter k,
      (it.source = HSource.transaction → it.id ∈
        (applyFilter ((HybridRetriever.loadPure txIndex sumIndex txNorms
          sumNorms).txDocs) filter).map (·.id)) ∧
      (it.source = HSource.summary → it.id ∈
        (applyFilter ((HybridRetriever.loadPure txIndex sumIndex txNorms
          sumNorms).sumDocs) filter).map (·.id)) := by
  cases hE : embedResult r with
  | none =>
    constructor
    · simp [HybridRetriever.search, HybridRetriever.loadPure, hE]
    · simp [HybridRetriever.search, HybridRetriever.loadPure, hE]
  | some qEmb =>
    have hids_tx : (VectorDB.ofIndex txIndex txNorms).ids.Nodup := htx
    have hids_sum : (VectorDB.ofIndex sumIndex sumNorms).ids.Nodup := hsum
    have hlen_tx : (VectorDB.ofIndex txIndex txNorms).embs.length ≤
        (VectorDB.ofIndex txIndex txNorms).ids.length := by
      simp [VectorDB.ofIndex, List.length_mapIdx]
    have hlen_sum : (VectorDB.ofIndex sumIndex sumNorms).embs.length ≤
        (VectorDB.ofIndex sumIndex sumNorms).ids.length := by
      simp [VectorDB.ofIndex, List.length_mapIdx]
    have hfilter_ids : ∀ (db : VectorDB) (pool : List HDoc)
        (opts : SearchOptions), db.ids.Nodup →
        db.embs.length ≤ db.ids.length →
        (((db.search qEmb sq opts).filter fun d : SearchResultItem =>
          pool.any fun p => decide (p.id = d.id)).map (·.id)).Nodup :=
      fun db pool opts hids hlen =>
        List.Sublist.nodup ((List.filter_sublist _).map _)
          (search_ids_nodup db qEmb sq opts hids hlen)
    have hfilter_sub : ∀ (db : VectorDB) (pool : List HDoc)
        (opts : SearchOptions) (src : HSource),
        poolOf (applyFilter (txIndex.chunks.map fun c =>
            { id := c.id, text := c.text, metadata := c.metadata }) filter)
          (applyFilter (sumIndex.chunks.map fun c =>
            { id := c.id, text := c.text, metadata := c.metadata }) filter) src = pool →
        ∀ x ∈ (db.search qEmb sq opts).filter fun d : SearchResultItem =>
            pool.any fun p => decide (p.id = d.id),
          x.id ∈ (poolOf (applyFilter (txIndex.chunks.map fun c =>
              { id := c.id, text := c.text, metadata := c.metadata }) filter)
            (applyFilter (sumIndex.chunks.map fun c =>
              { id := c.id, text := c.text, metadata := c.metadata }) filter) src).map
            (·.id) := by
      intro db pool opts src hpool x hx
      have hany := (List.mem_filter.mp hx).2
      rw [List.any_eq_true] at hany
      obtain ⟨p, hp, hpx⟩ := hany
      rw [hpool]
      exact List.mem_map.mpr ⟨p, hp, by simpa using hpx⟩
    simp only [HybridRetriever.search, HybridRetriever.loadPure, hE]
    constructor
    · refine combine_pairwise k _ _ ?_ ?_ ?_ ?_
      · exact fuse_ids_nodup _ _ _ _ _ _
          (hfilter_ids _ _ _ hids_tx hlen_tx) (bm25Score_keys_nodup _ _ _)
      · exact fuse_ids_nodup _ _ _ _ _ _
          (hfilter_ids _ _ _ hids_sum hlen_sum) (bm25Score_keys_nodup _ _ _)
      · exact fuse_source _ _ _ _ _ _
      · exact fuse_source _ _ _ _ _ _
    · intro it hit
      rcases combine_mem k _ _ it hit with h | h
      · have hsrc := fuse_source _ _ _ _ _ _ it h
        refine ⟨fun _ => ?_, fun hs => ?_⟩
        · exact fuse_ids_sub _ _ _ _ _ _
            (hfilter_sub _ _ _ HSource.transaction rfl) it h
        · rw [hsrc] at hs
          cases hs
      · have hsrc := fuse_source _ _ _ _ _ _ it h
        refine ⟨fun hs => ?_, fun _ => ?_⟩
        · rw [hsrc] at hs
          cases hs
        · exact fuse_ids_sub _ _ _ _ _ _
            (hfilter_sub _ _ _ HSource.summary rfl) it h

/-- C10 witness: the two one-chunk corpora with distinct ids yield a result
with no duplicated `(id, source)` pair, each id coming from its filtered
pool. -/
theorem hybrid_search_no_duplicate_pairs_witness :
    ((HybridRetriever.loadPure wIndexTx wIndexSum (fun _ => 1) (fun _ => 1)).search
        { embedding := some [1] } 1 (fun _ => 0) "alpha" none 6).Pairwise
      (fun a b => ¬(a.id = b.id ∧ a.source = b.source)) ∧
    ∀ it ∈ (HybridRetriever.loadPure wIndexTx wIndexSum (fun _ => 1)
        (fun _ => 1)).search { embedding := some [1] } 1 (fun _ => 0) "alpha"
        none 6,
      (it.source = HSource.transaction → it.id ∈
        (applyFilter ((HybridRetriever.loadPure wIndexTx wIndexSum (fun _ => 1)
          (fun _ => 1)).txDocs) none).map (·.id)) ∧
      (it.source = HSource.summary → it.id ∈
        (applyFilter ((HybridRetriever.loadPure wIndexTx wIndexSum (fun _ => 1)
          (fun _ => 1)).sumDocs) none).map (·.id)) :=
  hybrid_search_no_duplicate_pairs wIndexTx wIndexSum (fun _ => 1) (fun _ => 1)
    { embedding := some [1] } 1 (fun _ => 0) "alpha" none 6
    (by decide) (by decide)

end Rag
